import Mathlib

/-!
Verification of the translation-and-streaming core of a protocol-translating
proxy (claude-code-router).  The JavaScript/TypeScript sources are shallowly
embedded: JS strings become `List Char`, JS arrays become `List`, absent
object fields become `Option`, and the relevant functions
(`validateOpenAIToolCalls`, `formatRequest`, the SSE stream decoder of the
`/v1/messages` handler, and `getProviderInstance`) are translated into
executable Lean definitions.  External platform builtins (`JSON.parse`,
`JSON.stringify`, `TextDecoder`, the `lru-cache` package) are modelled as
documented at their use sites.
-/

namespace CCR

/-- JS strings are modelled as lists of characters. -/
abbrev JStr := List Char

/-- Shorthand turning a Lean string literal into the `JStr` model. -/
def S (s : String) : JStr := s.data

/-- Whitespace class used by JS `String.prototype.trim` (ASCII part; the
inputs in this development contain no exotic Unicode whitespace). -/
def isWs (c : Char) : Bool :=
  c == ' ' || c == '\t' || c == '\n' || c == '\r' || c == '\x0b' || c == '\x0c'

/-- Model of JS `s.trim()`: strip whitespace from both ends. -/
def jsTrim (s : JStr) : JStr :=
  ((s.dropWhile isWs).reverse.dropWhile isWs).reverse

/-- Model of JS `s.startsWith(p)`. -/
def leadsWith (p s : JStr) : Bool :=
  match p, s with
  | [], _ => true
  | _ :: _, [] => false
  | a :: p', b :: s' => a == b && leadsWith p' s'

/-- Model of JS `s.split('\n')` (always returns at least one fragment;
`""` splits to `[""]`, a trailing separator yields a final `""`). -/
def jsSplitNl : JStr → List JStr
  | [] => [[]]
  | c :: rest =>
    let r := jsSplitNl rest
    if c = '\n' then [] :: r else (c :: r.headI) :: r.tail

/-- Arbitrary JSON values (tool inputs / tool-result payloads are
duck-typed in the source; this tagged union models them). -/
inductive JsonV where
  | jnull
  | jbool (b : Bool)
  | jnum (n : Int)
  | jstr (s : JStr)
  | jarr (xs : List JsonV)
  | jobj (fields : List (JStr × JsonV))

mutual
/-- Model of the platform builtin `JSON.stringify` on `JsonV`
(the exact rendering is irrelevant to every claim; only the fact that it
is a total string-valued function matters). -/
def stringifyJson : JsonV → JStr
  | .jnull => S "null"
  | .jbool true => S "true"
  | .jbool false => S "false"
  | .jnum n => (toString n).data
  | .jstr s => '"' :: s ++ ['"']
  | .jarr xs => '[' :: stringifyList xs ++ [']']
  | .jobj fs => '\x7b' :: stringifyFields fs ++ ['\x7d']

def stringifyList : List JsonV → JStr
  | [] => []
  | [x] => stringifyJson x
  | x :: xs => stringifyJson x ++ ',' :: stringifyList xs

def stringifyFields : List (JStr × JsonV) → JStr
  | [] => []
  | [(k, v)] => '"' :: k ++ '"' :: ':' :: stringifyJson v
  | (k, v) :: fs => '"' :: k ++ '"' :: ':' :: stringifyJson v ++ ',' :: stringifyFields fs
end

/-! ## Target-format data model (OpenAI-style messages) -/

/-- One `tool_calls` entry: `{ id, type:"function", function:{name, arguments} }`
(the constant `type:"function"` tag is left implicit). -/
structure ToolCall where
  id : JStr
  name : JStr
  arguments : JStr
deriving DecidableEq

/-- A content block `{type, text, cache_control?}`; `cacheControl = true`
models the presence of `cache_control: {type:"ephemeral"}`. -/
structure CBlock where
  btype : JStr
  text : JStr
  cacheControl : Bool
deriving DecidableEq

/-- Content of a target message: JS `null`, a plain string, or an array of
content blocks. -/
inductive TContent where
  | null
  | str (s : JStr)
  | blocks (bs : List CBlock)
deriving DecidableEq

/-- A target (OpenAI-format) message.  `tool_calls = none` models an absent
field (`some []` models a present-but-empty array, which JS treats as
truthy); `tool_call_id = none` models an absent field. -/
structure TargetMsg where
  role : JStr
  content : TContent
  tool_calls : Option (List ToolCall) := none
  tool_call_id : Option JStr := none
deriving DecidableEq

/-- JS truthiness of a message content value (`null` and `""` are falsy,
any array — even empty — is truthy). -/
def truthyContent : TContent → Bool
  | .null => false
  | .str s => !s.isEmpty
  | .blocks _ => true

/-- `m.role === "tool"`. -/
def isToolMsg (m : TargetMsg) : Bool := m.role == S "tool"

/-- `m.role === "assistant" && m.tool_calls` (an array field is truthy even
when empty). -/
def hasCalls (m : TargetMsg) : Bool := m.role == S "assistant" && m.tool_calls.isSome

/-- The id-match test used in both directions by the validator:
`toolMsg.tool_call_id === toolCall.id`. -/
def matchesCall (c : ToolCall) (t : TargetMsg) : Bool := t.tool_call_id == some c.id

/-- `immediateToolMessages.some(m => m.tool_call_id === c.id)` over the
assistant's `tool_calls`, keeping the matched ones. -/
def validCallsFor (calls : List ToolCall) (run : List TargetMsg) : List ToolCall :=
  calls.filter (fun c => run.any (matchesCall c))

/-- `prev.tool_calls.some(c => c.id === cur.tool_call_id)` (with
`getD []`: when the field is absent there is nothing to match). -/
def anyCallMatches (a : TargetMsg) (t : TargetMsg) : Bool :=
  (a.tool_calls.getD []).any (fun c => matchesCall c t)

/-! ## validateOpenAIToolCalls — faithful index-based embedding

The source walks `messages` by index `i`: an assistant message with
`tool_calls` collects the contiguous run of `tool` messages at `i+1, …`,
filters its `tool_calls` to those matched in that run, deletes the field
if nothing survives, and drops the whole message when it then has neither
content nor calls; a `tool` message inspects `messages[i-1]` and — when
that is itself a `tool` message — scans backward past `tool` messages to
the first non-tool message, keeping the `tool` message only when that
message is an assistant with a matching `tool_calls` id; every other
message is passed through unchanged. -/

/-- The backward `for (let k = i-1; k >= 0; k--)` scan of the source:
skip `tool` messages; at the first non-tool message succeed exactly when
it is an assistant whose `tool_calls` contains a matching id. -/
def backScan (msgs : List TargetMsg) (t : TargetMsg) : Nat → Bool
  | 0 =>
    match msgs[0]? with
    | none => false
    | some p => if isToolMsg p then false else hasCalls p && anyCallMatches p t
  | k + 1 =>
    match msgs[k + 1]? with
    | none => false
    | some p => if isToolMsg p then backScan msgs t k else hasCalls p && anyCallMatches p t

/-- Decision for a `tool` message at index `i`: the source first checks
`messages[i-1]` directly, then (only when `messages[i-1]` is a `tool`
message) scans further backward. -/
def toolDecision (msgs : List TargetMsg) (i : Nat) (t : TargetMsg) : Bool :=
  match i with
  | 0 => false
  | i' + 1 =>
    match msgs[i']? with
    | none => false
    | some prev =>
      if hasCalls prev then anyCallMatches prev t
      else if isToolMsg prev then backScan msgs t i'
      else false

/-- Rewrite of an assistant message with `tool_calls`: keep the matched
calls, delete the field when none survive, and emit the message only when
it still has (truthy) content or surviving calls. -/
def processAssistant (m : TargetMsg) (calls : List ToolCall) (run : List TargetMsg) :
    List TargetMsg :=
  let valid := validCallsFor calls run
  let m' : TargetMsg := { m with tool_calls := if valid.isEmpty then none else some valid }
  if truthyContent m'.content || m'.tool_calls.isSome then [m'] else []

/-- The messages the validator emits for index `i`. -/
def emitAt (msgs : List TargetMsg) (i : Nat) : List TargetMsg :=
  match msgs[i]? with
  | none => []
  | some m =>
    if hasCalls m then
      processAssistant m (m.tool_calls.getD []) ((msgs.drop (i + 1)).takeWhile isToolMsg)
    else if isToolMsg m then
      if toolDecision msgs i m then [m] else []
    else [m]

/-- The `for (let i = 0; …)` loop from index `i` on; the first argument is
fuel (the number of remaining iterations), which keeps the recursion
structural so that the kernel can evaluate it. -/
def goIdx (msgs : List TargetMsg) : Nat → Nat → List TargetMsg
  | 0, _ => []
  | fuel + 1, i => if i < msgs.length then emitAt msgs i ++ goIdx msgs fuel (i + 1) else []

/-- `validateOpenAIToolCalls` from `formatRequest.ts`. -/
def validateOpenAIToolCalls (msgs : List TargetMsg) : List TargetMsg :=
  goIdx msgs msgs.length 0

/-! ## An equivalent structural recursion

For the proofs the index-based loop is re-expressed as a recursion that
threads the nearest preceding non-tool message (the only part of the
prefix the backward scan can reach). -/

/-- Keep-decision of a `tool` message given the nearest preceding non-tool
message. -/
def toolKeep (lnt : Option TargetMsg) (t : TargetMsg) : Bool :=
  match lnt with
  | none => false
  | some a => hasCalls a && anyCallMatches a t

/-- Structural version of the validator loop; `lnt` is the nearest
preceding non-tool message of the original list. -/
def validateGo (lnt : Option TargetMsg) : List TargetMsg → List TargetMsg
  | [] => []
  | m :: rest =>
    if hasCalls m then
      processAssistant m (m.tool_calls.getD []) (rest.takeWhile isToolMsg) ++
        validateGo (some m) rest
    else if isToolMsg m then
      (if toolKeep lnt m then [m] else []) ++ validateGo lnt rest
    else
      m :: validateGo (some m) rest

/-- Nearest non-tool message at an index `≤ k` of the original list. -/
def prevNonToolFrom (msgs : List TargetMsg) : Nat → Option TargetMsg
  | 0 =>
    match msgs[0]? with
    | none => none
    | some p => if isToolMsg p then none else some p
  | k + 1 =>
    match msgs[k + 1]? with
    | none => none
    | some p => if isToolMsg p then prevNonToolFrom msgs k else some p

/-- Nearest non-tool message strictly before index `i`. -/
def prevNonTool (msgs : List TargetMsg) : Nat → Option TargetMsg
  | 0 => none
  | i' + 1 => prevNonToolFrom msgs i'

theorem hasCalls_not_tool {m : TargetMsg} (h : hasCalls m = true) : isToolMsg m = false := by
  rcases Bool.and_eq_true_iff.mp h with ⟨hr, _⟩
  have : m.role = S "assistant" := by simpa using hr
  simp [isToolMsg, this, S]

theorem backScan_eq_toolKeep (msgs : List TargetMsg) (t : TargetMsg) :
    ∀ k, backScan msgs t k = toolKeep (prevNonToolFrom msgs k) t := by
  intro k
  induction k with
  | zero =>
    simp only [backScan, prevNonToolFrom]
    cases h : msgs[0]? with
    | none => rfl
    | some p =>
      cases hp : isToolMsg p with
      | true => simp [hp, toolKeep]
      | false => simp [hp, toolKeep]
  | succ k ih =>
    simp only [backScan, prevNonToolFrom]
    cases h : msgs[k + 1]? with
    | none => rfl
    | some p =>
      cases hp : isToolMsg p with
      | true => simpa [hp] using ih
      | false => simp [hp, toolKeep]

theorem toolDecision_eq_toolKeep (msgs : List TargetMsg) (t : TargetMsg) (i : Nat) :
    toolDecision msgs i t = toolKeep (prevNonTool msgs i) t := by
  cases i with
  | zero => rfl
  | succ i' =>
    cases hget : msgs[i']? with
    | none =>
      have hp : prevNonToolFrom msgs i' = none := by
        cases i' <;> simp [prevNonToolFrom, hget]
      simp [toolDecision, prevNonTool, hget, hp, toolKeep]
    | some prev =>
      cases hc : hasCalls prev with
      | true =>
        have hnt := hasCalls_not_tool hc
        have hp : prevNonToolFrom msgs i' = some prev := by
          cases i' <;> simp [prevNonToolFrom, hget, hnt]
        simp [toolDecision, prevNonTool, hget, hc, hnt, hp, toolKeep]
      | false =>
        cases ht : isToolMsg prev with
        | true =>
          have : toolDecision msgs (i' + 1) t = backScan msgs t i' := by
            simp [toolDecision, hget, hc, ht]
          rw [this, backScan_eq_toolKeep]
          rfl
        | false =>
          have hp : prevNonToolFrom msgs i' = some prev := by
            cases i' <;> simp [prevNonToolFrom, hget, ht]
          simp [toolDecision, prevNonTool, hget, hc, ht, hp, toolKeep]

theorem prevNonTool_succ_of_nontool {msgs : List TargetMsg} {i : Nat} {m : TargetMsg}
    (h : msgs[i]? = some m) (hm : isToolMsg m = false) :
    prevNonTool msgs (i + 1) = some m := by
  cases i <;> simp [prevNonTool, prevNonToolFrom, h, hm]

theorem prevNonTool_succ_of_tool {msgs : List TargetMsg} {i : Nat} {m : TargetMsg}
    (h : msgs[i]? = some m) (hm : isToolMsg m = true) :
    prevNonTool msgs (i + 1) = prevNonTool msgs i := by
  cases i <;> simp [prevNonTool, prevNonToolFrom, h, hm]

theorem goIdx_eq_validateGo (msgs : List TargetMsg) :
    ∀ n i, msgs.length - i ≤ n →
      goIdx msgs n i = validateGo (prevNonTool msgs i) (msgs.drop i) := by
  intro n
  induction n with
  | zero =>
    intro i hi
    have hlen : msgs.length ≤ i := by omega
    rw [goIdx]
    simp [List.drop_eq_nil_of_le hlen, validateGo]
  | succ n ihn =>
    intro i hi
    by_cases h : i < msgs.length
    · have hget : msgs[i]? = some msgs[i] := List.getElem?_eq_getElem h
      set m := msgs[i] with hm
      have hdrop : msgs.drop i = m :: msgs.drop (i + 1) := List.drop_eq_getElem_cons h
      have hrec := ihn (i + 1) (by omega)
      rw [goIdx, if_pos h, hdrop, validateGo]
      simp only [emitAt, hget]
      cases hc : hasCalls m with
      | true =>
        rw [hrec, prevNonTool_succ_of_nontool hget (hasCalls_not_tool hc)]
        simp [hc]
      | false =>
        cases ht : isToolMsg m with
        | true =>
          rw [hrec, prevNonTool_succ_of_tool hget ht, toolDecision_eq_toolKeep]
          simp [hc, ht]
        | false =>
          rw [hrec, prevNonTool_succ_of_nontool hget ht]
          simp [hc, ht]
    · rw [goIdx]
      have hlen : msgs.length ≤ i := Nat.not_lt.mp h
      simp [h, List.drop_eq_nil_of_le hlen, validateGo]

theorem validate_eq_validateGo (msgs : List TargetMsg) :
    validateOpenAIToolCalls msgs = validateGo none msgs := by
  rw [validateOpenAIToolCalls, goIdx_eq_validateGo msgs msgs.length 0 (by omega)]
  rfl

/-! ## Idempotence of the validator -/

theorem tool_not_hasCalls {m : TargetMsg} (h : isToolMsg m = true) : hasCalls m = false := by
  have hr : m.role = S "tool" := by simpa [isToolMsg] using h
  simp [hasCalls, hr, S]

/-- Every list element visited by the takeWhile-prefix of small helper
lemmas below is available in Mathlib, but a directed form of
`takeWhile` over an append with an all-true prefix is not; proved here. -/
theorem takeWhile_append_all {α : Type} (p : α → Bool) :
    ∀ (l1 l2 : List α), (∀ a ∈ l1, p a = true) →
      (l1 ++ l2).takeWhile p = l1 ++ l2.takeWhile p := by
  intro l1
  induction l1 with
  | nil => simp
  | cons a l ih =>
    intro l2 h
    have ha : p a = true := h a (by simp)
    simp [List.takeWhile_cons, ha, ih l2 (fun x hx => h x (by simp [hx]))]

theorem head_dropWhile_not {α : Type} (p : α → Bool) :
    ∀ (l : List α) (hd : α), (l.dropWhile p).head? = some hd → p hd = false := by
  intro l
  induction l with
  | nil => intro hd h; simp at h
  | cons a l ih =>
    intro hd h
    rw [List.dropWhile_cons] at h
    by_cases ha : p a = true
    · exact ih hd (by simpa [ha] using h)
    · have : a = hd := by simpa [ha] using h
      subst this
      simpa using ha

/-- Lists whose head (if any) is not a `tool` message. -/
def headNoTool (ys : List TargetMsg) : Prop :=
  ∀ hd, ys.head? = some hd → isToolMsg hd = false

theorem takeWhile_eq_nil_of_headNoTool {ys : List TargetMsg} (h : headNoTool ys) :
    ys.takeWhile isToolMsg = [] := by
  cases ys with
  | nil => rfl
  | cons a l =>
    have := h a rfl
    simp [List.takeWhile_cons, this]

/-- Explicit form of `processAssistant`. -/
theorem processAssistant_eq (m : TargetMsg) (calls : List ToolCall) (run : List TargetMsg) :
    processAssistant m calls run =
      if truthyContent m.content || !(validCallsFor calls run).isEmpty then
        [{ m with tool_calls := if (validCallsFor calls run).isEmpty then none
                                else some (validCallsFor calls run) }]
      else [] := by
  rw [processAssistant]
  by_cases hv : (validCallsFor calls run).isEmpty <;> simp [hv]

/-- If the assistant's filtered `tool_calls` list is empty, no `tool`
message of the following run can match it. -/
theorem toolKeep_false_of_valid_nil {m : TargetMsg} {calls : List ToolCall}
    {run : List TargetMsg} (hm : m.tool_calls = some calls)
    (hv : validCallsFor calls run = []) :
    ∀ t ∈ run, toolKeep (some m) t = false := by
  intro t ht
  by_contra hk
  have hk' : toolKeep (some m) t = true := by
    cases h : toolKeep (some m) t
    · exact absurd h hk
    · rfl
  have hany : anyCallMatches m t = true := by
    have := (Bool.and_eq_true_iff.mp (by simpa [toolKeep] using hk')).2
    exact this
  rw [anyCallMatches, hm] at hany
  simp only [Option.getD_some, List.any_eq_true] at hany
  obtain ⟨c, hc, hct⟩ := hany
  have : c ∈ validCallsFor calls run := by
    rw [validCallsFor, List.mem_filter]
    exact ⟨hc, by rw [List.any_eq_true]; exact ⟨t, ht, hct⟩⟩
  rw [hv] at this
  simp at this

/-- The validator processes a leading run of `tool` messages by filtering
it with the fixed keep-decision, leaving the state unchanged. -/
theorem validateGo_front (lnt : Option TargetMsg) :
    ∀ xs : List TargetMsg,
      validateGo lnt xs =
        (xs.takeWhile isToolMsg).filter (toolKeep lnt) ++
          validateGo lnt (xs.dropWhile isToolMsg) := by
  intro xs
  induction xs with
  | nil => simp [validateGo]
  | cons m rest ih =>
    cases ht : isToolMsg m with
    | false => simp [List.takeWhile_cons, List.dropWhile_cons, ht]
    | true =>
      have hc : hasCalls m = false := tool_not_hasCalls ht
      rw [validateGo, ih]
      simp only [List.takeWhile_cons, List.dropWhile_cons, ht, if_pos rfl, hc,
        Bool.false_eq_true, if_false, List.filter_cons]
      cases hk : toolKeep lnt m <;> simp [hk]

/-- The output of the validator never starts with a `tool` message unless
the input did. -/
theorem validateGo_headNoTool :
    ∀ (n : Nat) (xs : List TargetMsg) (lnt : Option TargetMsg), xs.length ≤ n →
      headNoTool xs → headNoTool (validateGo lnt xs) := by
  intro n
  induction n with
  | zero =>
    intro xs lnt hl _
    have : xs = [] := List.length_eq_zero.mp (Nat.le_zero.mp hl)
    subst this
    intro hd h
    simp [validateGo] at h
  | succ n ih =>
    intro xs lnt hl hx
    cases xs with
    | nil => intro hd h; simp [validateGo] at h
    | cons m rest =>
      have hm : isToolMsg m = false := hx m rfl
      cases hc : hasCalls m with
      | false =>
        rw [validateGo]
        simp only [hc, Bool.false_eq_true, if_false, hm]
        intro hd h
        simp only [List.head?_cons, Option.some.injEq] at h
        subst h
        exact hm
      | true =>
        rw [validateGo, processAssistant_eq]
        by_cases hkeep :
            (truthyContent m.content ||
              !(validCallsFor (m.tool_calls.getD []) (rest.takeWhile isToolMsg)).isEmpty) = true
        · rw [if_pos hc, if_pos hkeep]
          intro hd h
          simp only [List.cons_append, List.head?_cons, Option.some.injEq] at h
          subst h
          simpa [isToolMsg] using hm
        · rw [if_pos hc, if_neg hkeep]
          simp only [List.nil_append]
          -- all tool calls were dropped: the leading tool run of `rest`
          -- is dropped entirely as well
          have hve : validCallsFor (m.tool_calls.getD []) (rest.takeWhile isToolMsg) = [] := by
            simp only [Bool.or_eq_true, Bool.not_eq_true', not_or] at hkeep
            exact List.isEmpty_iff.mp (by simpa using hkeep.2)
          obtain ⟨calls, hcalls⟩ : ∃ calls, m.tool_calls = some calls := by
            rcases Bool.and_eq_true_iff.mp hc with ⟨_, h2⟩
            exact Option.isSome_iff_exists.mp h2
          have hve' : validCallsFor calls (rest.takeWhile isToolMsg) = [] := by
            rw [hcalls] at hve; simpa using hve
          have hfilter :
              (rest.takeWhile isToolMsg).filter (toolKeep (some m)) = [] := by
            rw [List.filter_eq_nil_iff]
            intro t htw
            have := toolKeep_false_of_valid_nil hcalls hve' t htw
            simp [this]
          rw [validateGo_front, hfilter, List.nil_append]
          apply ih (rest.dropWhile isToolMsg) (some m)
          · calc (rest.dropWhile isToolMsg).length ≤ rest.length :=
                  (List.dropWhile_sublist _).length_le
              _ ≤ n := by simpa using Nat.succ_le_succ_iff.mp hl
          · intro hd h
            exact head_dropWhile_not isToolMsg rest hd h

/-- Fixed-point checker: a list satisfies `ValidB` exactly when one pass of
the validator leaves every element untouched. -/
def ValidB (lnt : Option TargetMsg) : List TargetMsg → Bool
  | [] => true
  | m :: rest =>
    if hasCalls m then
      (match m.tool_calls with
       | some calls =>
           !calls.isEmpty && calls.all (fun c => (rest.takeWhile isToolMsg).any (matchesCall c))
       | none => false) && ValidB (some m) rest
    else if isToolMsg m then toolKeep lnt m && ValidB lnt rest
    else ValidB (some m) rest

/-- `ValidB` only consults the state on the leading run of `tool`
messages, so any state agreeing there can replace it. -/
theorem ValidB_transfer :
    ∀ (ys : List TargetMsg) (s s' : Option TargetMsg),
      (∀ t ∈ ys.takeWhile isToolMsg, toolKeep s t = true → toolKeep s' t = true) →
      ValidB s ys = true → ValidB s' ys = true := by
  intro ys
  induction ys with
  | nil => simp [ValidB]
  | cons m rest ih =>
    intro s s' hts hv
    cases hc : hasCalls m with
    | true =>
      rw [ValidB] at hv ⊢
      simpa [hc] using hv
    | false =>
      cases ht : isToolMsg m with
      | true =>
        rw [ValidB] at hv ⊢
        simp only [hc, Bool.false_eq_true, if_false, ht, eq_self_iff_true, if_true,
          Bool.and_eq_true] at hv ⊢
        obtain ⟨h1, h2⟩ := hv
        have hmem : m ∈ (m :: rest).takeWhile isToolMsg := by
          simp [List.takeWhile_cons, ht]
        refine ⟨hts m hmem h1, ih s s' ?_ h2⟩
        intro t htw hk
        exact hts t (by simp [List.takeWhile_cons, ht, htw]) hk
      | false =>
        rw [ValidB] at hv ⊢
        simpa [hc, ht] using hv

/-- On a `ValidB` list one pass of the validator is the identity. -/
theorem validateGo_fix :
    ∀ (xs : List TargetMsg) (lnt : Option TargetMsg),
      ValidB lnt xs = true → validateGo lnt xs = xs := by
  intro xs
  induction xs with
  | nil => intro lnt _; rfl
  | cons m rest ih =>
    intro lnt hv
    cases hc : hasCalls m with
    | true =>
      rw [ValidB] at hv
      simp only [hc, eq_self_iff_true, if_true, Bool.and_eq_true] at hv
      obtain ⟨hfix, hrest⟩ := hv
      obtain ⟨calls, hcalls⟩ : ∃ calls, m.tool_calls = some calls := by
        rcases Bool.and_eq_true_iff.mp hc with ⟨_, h2⟩
        exact Option.isSome_iff_exists.mp h2
      rw [hcalls] at hfix
      simp only [Bool.and_eq_true, List.all_eq_true] at hfix
      obtain ⟨hne, hall⟩ := hfix
      have hfilter : validCallsFor calls (rest.takeWhile isToolMsg) = calls :=
        List.filter_eq_self.mpr hall
      rw [validateGo, if_pos hc, ih (some m) hrest]
      have hcne : calls.isEmpty = false := by simpa using hne
      rw [processAssistant_eq, hcalls]
      simp only [Option.getD_some, hfilter, hcne, Bool.not_false, Bool.or_true,
        eq_self_iff_true, if_true, Bool.false_eq_true, if_false]
      have : { m with tool_calls := some calls } = m := by
        cases m
        simp_all
      rw [this]
      rfl
    | false =>
      cases ht : isToolMsg m with
      | true =>
        rw [ValidB] at hv
        simp only [hc, Bool.false_eq_true, if_false, ht, eq_self_iff_true, if_true,
          Bool.and_eq_true] at hv
        obtain ⟨hk, hrest⟩ := hv
        rw [validateGo]
        simp only [hc, Bool.false_eq_true, if_false, ht, eq_self_iff_true, if_true, hk]
        rw [ih lnt hrest]
        rfl
      | false =>
        rw [ValidB] at hv
        simp only [hc, Bool.false_eq_true, if_false, ht] at hv
        rw [validateGo]
        simp only [hc, Bool.false_eq_true, if_false, ht]
        rw [ih (some m) hv]

theorem toolKeep_some_iff {a t : TargetMsg} {calls : List ToolCall}
    (hcalls : a.tool_calls = some calls) (hc : hasCalls a = true) :
    toolKeep (some a) t = true ↔ ∃ c ∈ calls, matchesCall c t = true := by
  rw [toolKeep, Bool.and_eq_true, anyCallMatches, hcalls]
  simp [hc, List.any_eq_true]

/-- One pass of the validator always produces a `ValidB` list. -/
theorem validateGo_ValidB :
    ∀ (xs : List TargetMsg) (lnt : Option TargetMsg),
      ValidB lnt (validateGo lnt xs) = true := by
  intro xs
  induction xs with
  | nil => intro lnt; rfl
  | cons m rest ih =>
    intro lnt
    cases hc : hasCalls m with
    | false =>
      cases ht : isToolMsg m with
      | true =>
        cases hk : toolKeep lnt m with
        | true =>
          have hgo : validateGo lnt (m :: rest) = m :: validateGo lnt rest := by
            rw [validateGo]; simp [hc, ht, hk]
          rw [hgo, ValidB]
          simp [hc, ht, hk, ih lnt]
        | false =>
          have hgo : validateGo lnt (m :: rest) = validateGo lnt rest := by
            rw [validateGo]; simp [hc, ht, hk]
          rw [hgo]; exact ih lnt
      | false =>
        have hgo : validateGo lnt (m :: rest) = m :: validateGo (some m) rest := by
          rw [validateGo]; simp [hc, ht]
        rw [hgo, ValidB]
        simp [hc, ht, ih (some m)]
    | true =>
      obtain ⟨calls, hcalls⟩ : ∃ calls, m.tool_calls = some calls := by
        rcases Bool.and_eq_true_iff.mp hc with ⟨_, h2⟩
        exact Option.isSome_iff_exists.mp h2
      have hgo : validateGo lnt (m :: rest) =
          processAssistant m calls (rest.takeWhile isToolMsg) ++ validateGo (some m) rest := by
        rw [validateGo, if_pos hc, hcalls]
        rfl
      by_cases hve : validCallsFor calls (rest.takeWhile isToolMsg) = []
      · -- the whole leading tool run after `m` is dropped along with the calls
        have hfilter : (rest.takeWhile isToolMsg).filter (toolKeep (some m)) = [] := by
          rw [List.filter_eq_nil_iff]
          intro t htw
          simp [toolKeep_false_of_valid_nil hcalls hve t htw]
        have hout : validateGo (some m) rest =
            validateGo (some m) (rest.dropWhile isToolMsg) := by
          rw [validateGo_front (some m) rest, hfilter, List.nil_append]
        have hnt : headNoTool (validateGo (some m) rest) := by
          rw [hout]
          exact validateGo_headNoTool (rest.dropWhile isToolMsg).length _ (some m) le_rfl
            (fun hd h => head_dropWhile_not isToolMsg rest hd h)
        have htw0 : (validateGo (some m) rest).takeWhile isToolMsg = [] :=
          takeWhile_eq_nil_of_headNoTool hnt
        have htrans : ∀ s', ValidB s' (validateGo (some m) rest) = true := by
          intro s'
          apply ValidB_transfer _ (some m) s' _ (ih (some m))
          rw [htw0]
          intro t ht'
          simp at ht'
        by_cases hkc : truthyContent m.content = true
        · have hpa : processAssistant m calls (rest.takeWhile isToolMsg) =
              [{ m with tool_calls := none }] := by
            rw [processAssistant_eq]
            simp [hve, hkc]
          rw [hgo, hpa, List.singleton_append, ValidB]
          have h1 : hasCalls { m with tool_calls := none } = false := by
            simp [hasCalls]
          have h2 : isToolMsg { m with tool_calls := none } = false := by
            have := hasCalls_not_tool hc
            simpa [isToolMsg] using this
          simp only [h1, h2, Bool.false_eq_true, if_false]
          exact htrans _
        · have hpa : processAssistant m calls (rest.takeWhile isToolMsg) = [] := by
            rw [processAssistant_eq]
            simp [hve, hkc]
          rw [hgo, hpa, List.nil_append]
          exact htrans lnt
      · -- some calls survive: the assistant is kept with the filtered list,
        -- and each survivor keeps its matching tool message in the output run
        set run := rest.takeWhile isToolMsg with hrun
        set vc := validCallsFor calls run with hvc
        have hvne : vc.isEmpty = false := by
          simpa [List.isEmpty_iff] using hve
        have hpa : processAssistant m calls run = [{ m with tool_calls := some vc }] := by
          rw [processAssistant_eq]
          simp only [← hvc, hvne, Bool.not_false, Bool.or_true, eq_self_iff_true, if_true,
            Bool.false_eq_true, if_false]
        have hrole : m.role = S "assistant" := by
          rcases Bool.and_eq_true_iff.mp hc with ⟨h1, _⟩
          simpa using h1
        have hfrontTool : ∀ a ∈ run.filter (toolKeep (some m)), isToolMsg a = true :=
          fun a ha => List.mem_takeWhile_imp (List.mem_of_mem_filter ha)
        have htail2 : (validateGo (some m) (rest.dropWhile isToolMsg)).takeWhile isToolMsg = [] := by
          apply takeWhile_eq_nil_of_headNoTool
          exact validateGo_headNoTool (rest.dropWhile isToolMsg).length _ (some m) le_rfl
            (fun hd h => head_dropWhile_not isToolMsg rest hd h)
        have htw : (validateGo (some m) rest).takeWhile isToolMsg =
            run.filter (toolKeep (some m)) := by
          rw [validateGo_front (some m) rest, ← hrun,
            takeWhile_append_all _ _ _ hfrontTool, htail2, List.append_nil]
        -- every surviving call is matched inside the surviving run
        have hmatched : ∀ c ∈ vc,
            ((validateGo (some m) rest).takeWhile isToolMsg).any (matchesCall c) = true := by
          intro c hcmem
          rw [hvc, validCallsFor, List.mem_filter] at hcmem
          obtain ⟨hcc, hcany⟩ := hcmem
          rw [List.any_eq_true] at hcany
          obtain ⟨t, htrun, hmt⟩ := hcany
          have hkt : toolKeep (some m) t = true := by
            rw [toolKeep_some_iff hcalls hc]
            exact ⟨c, hcc, hmt⟩
          have htf : t ∈ run.filter (toolKeep (some m)) :=
            List.mem_filter.mpr ⟨htrun, hkt⟩
          rw [htw, List.any_eq_true]
          exact ⟨t, htf, hmt⟩
        rw [hgo, hpa, List.singleton_append, ValidB]
        have hc' : hasCalls { m with tool_calls := some vc } = true := by
          simp [hasCalls, hrole, S]
        simp only [hc', eq_self_iff_true, if_true, Bool.and_eq_true]
        constructor
        · simp only [hvne, Bool.not_false, Bool.and_eq_true, List.all_eq_true]
          exact ⟨trivial, fun c hcm => hmatched c hcm⟩
        · -- transfer the inductive hypothesis from state `some m` to the
          -- rewritten assistant
          apply ValidB_transfer _ (some m) _ _ (ih (some m))
          intro t htw' hkt
          rw [htw] at htw'
          obtain ⟨htrun, _⟩ := List.mem_filter.mp htw'
          rw [toolKeep_some_iff hcalls hc] at hkt
          obtain ⟨c, hcc, hmt⟩ := hkt
          have hcv : c ∈ vc := by
            rw [hvc, validCallsFor, List.mem_filter]
            exact ⟨hcc, by rw [List.any_eq_true]; exact ⟨t, htrun, hmt⟩⟩
          rw [@toolKeep_some_iff _ t vc rfl hc']
          exact ⟨c, hcv, hmt⟩

/-- Idempotence, in the structural formulation. -/
theorem validateGo_idem (xs : List TargetMsg) :
    validateGo none (validateGo none xs) = validateGo none xs :=
  validateGo_fix _ none (validateGo_ValidB xs none)

/-! ## Positional behaviour of the validator at fully matched pairs -/

/-- An assistant message whose calls are all matched is emitted verbatim. -/
theorem processAssistant_self {m : TargetMsg} {calls : List ToolCall} {run : List TargetMsg}
    (hcalls : m.tool_calls = some calls) (hne : calls ≠ [])
    (hall : ∀ c ∈ calls, run.any (matchesCall c) = true) :
    processAssistant m calls run = [m] := by
  have hfilter : validCallsFor calls run = calls := List.filter_eq_self.mpr hall
  have hcne : calls.isEmpty = false := by simpa [List.isEmpty_iff] using hne
  rw [processAssistant_eq, hfilter]
  simp only [hcne, Bool.not_false, Bool.or_true, eq_self_iff_true, if_true,
    Bool.false_eq_true, if_false]
  have : { m with tool_calls := some calls } = m := by
    cases m
    simp_all
  rw [this]

theorem emitAt_assistant_fixed {msgs : List TargetMsg} {i : Nat} {m : TargetMsg}
    {calls : List ToolCall}
    (hget : msgs[i]? = some m) (hrole : m.role = S "assistant")
    (hcalls : m.tool_calls = some calls) (hne : calls ≠ [])
    (hall : ∀ c ∈ calls, ((msgs.drop (i + 1)).takeWhile isToolMsg).any (matchesCall c) = true) :
    emitAt msgs i = [m] := by
  have hc : hasCalls m = true := by simp [hasCalls, hrole, hcalls]
  simp only [emitAt, hget]
  rw [if_pos hc, hcalls]
  exact processAssistant_self hcalls hne hall

/-- Reading the `k`-th element of the tool run following index `i`. -/
theorem run_getElem (msgs : List TargetMsg) (i : Nat) (k : Nat) (t : TargetMsg)
    (h : ((msgs.drop (i + 1)).takeWhile isToolMsg)[k]? = some t) :
    msgs[i + 1 + k]? = some t ∧ isToolMsg t = true := by
  have htool : isToolMsg t = true := List.mem_takeWhile_imp (List.getElem?_mem h)
  have hlen : k < ((msgs.drop (i + 1)).takeWhile isToolMsg).length :=
    (List.getElem?_eq_some.mp h).1
  obtain ⟨tl, htl⟩ := List.takeWhile_prefix (l := msgs.drop (i + 1)) isToolMsg
  have hdk : (msgs.drop (i + 1))[k]? = some t := by
    rw [← htl, List.getElem?_append_left hlen]
    exact h
  rw [List.getElem?_drop] at hdk
  exact ⟨hdk, htool⟩

/-- After walking back over the tool run `i+1, …, i+k`, the backward scan
lands on the non-tool message at index `i`. -/
theorem prevNonToolFrom_past_run (msgs : List TargetMsg) (i : Nat) (m : TargetMsg)
    (hget : msgs[i]? = some m) (hm : isToolMsg m = false) :
    ∀ k, (∀ d, d < k → ∃ u, msgs[i + 1 + d]? = some u ∧ isToolMsg u = true) →
      prevNonToolFrom msgs (i + k) = some m := by
  intro k
  induction k with
  | zero =>
    intro _
    cases i <;> simp [prevNonToolFrom, hget, hm]
  | succ k ih =>
    intro hrun
    obtain ⟨u, hu, hut⟩ := hrun k (Nat.lt_succ_self k)
    have he : i + 1 + k = i + k + 1 := by omega
    rw [he] at hu
    have hstep : prevNonToolFrom msgs (i + (k + 1)) = prevNonToolFrom msgs (i + k) := by
      show prevNonToolFrom msgs (i + k + 1) = _
      simp [prevNonToolFrom, hu, hut]
    rw [hstep]
    exact ih (fun d hd => hrun d (Nat.lt_succ_of_lt hd))

/-- A matched tool message inside the run following a fully matched
assistant is emitted verbatim. -/
theorem emitAt_tool_kept {msgs : List TargetMsg} {i k : Nat} {m t : TargetMsg}
    {calls : List ToolCall}
    (hget : msgs[i]? = some m) (hrole : m.role = S "assistant")
    (hcalls : m.tool_calls = some calls)
    (ht : ((msgs.drop (i + 1)).takeWhile isToolMsg)[k]? = some t)
    (hmatch : ∃ c ∈ calls, matchesCall c t = true) :
    emitAt msgs (i + 1 + k) = [t] := by
  have hc : hasCalls m = true := by simp [hasCalls, hrole, hcalls]
  have hmnt : isToolMsg m = false := by
    rw [isToolMsg, hrole]
    decide
  obtain ⟨htg, htool⟩ := run_getElem msgs i k t ht
  have hnc : hasCalls t = false := tool_not_hasCalls htool
  have hdrun : ∀ d, d < k + 1 → ∃ u, msgs[i + 1 + d]? = some u ∧ isToolMsg u = true := by
    intro d hd
    by_cases hdk : d = k
    · exact ⟨t, by rw [hdk]; exact htg, by rw [hdk] at *; exact htool⟩
    · have hdlt : d < k := by omega
      have hlen : k < ((msgs.drop (i + 1)).takeWhile isToolMsg).length :=
        (List.getElem?_eq_some.mp ht).1
      have hdl : d < ((msgs.drop (i + 1)).takeWhile isToolMsg).length := by omega
      obtain ⟨u, hu⟩ : ∃ u, ((msgs.drop (i + 1)).takeWhile isToolMsg)[d]? = some u :=
        ⟨_, List.getElem?_eq_getElem hdl⟩
      obtain ⟨h1, h2⟩ := run_getElem msgs i d u hu
      exact ⟨u, h1, h2⟩
  have hpf : prevNonToolFrom msgs (i + (k + 1)) = some m :=
    prevNonToolFrom_past_run msgs i m hget hmnt (k + 1) hdrun
  have he : i + 1 + k = i + (k + 1) := by omega
  simp only [emitAt, htg, hnc, Bool.false_eq_true, if_false, htool, eq_self_iff_true, if_true]
  rw [toolDecision_eq_toolKeep]
  have hpn : prevNonTool msgs (i + 1 + k) = some m := by
    rw [he]
    show prevNonToolFrom msgs (i + k) = some m
    exact prevNonToolFrom_past_run msgs i m hget hmnt k
      (fun d hd => hdrun d (Nat.lt_succ_of_lt hd))
  rw [hpn]
  have : toolKeep (some m) t = true := by
    rw [toolKeep_some_iff hcalls hc]
    exact hmatch
  rw [this]
  rfl

/-- Everything emitted at some index is in the validator's output. -/
theorem mem_validate_of_emitAt {msgs : List TargetMsg} {i : Nat} {x : TargetMsg}
    (hx : x ∈ emitAt msgs i) : x ∈ validateOpenAIToolCalls msgs := by
  have hlt : i < msgs.length := by
    cases hg : msgs[i]? with
    | none => simp [emitAt, hg] at hx
    | some m => exact (List.getElem?_eq_some.mp hg).1
  rw [validateOpenAIToolCalls]
  have key : ∀ fuel j, j ≤ i → msgs.length - j ≤ fuel → x ∈ goIdx msgs fuel j := by
    intro fuel
    induction fuel with
    | zero =>
      intro j h1 h2
      omega
    | succ d ihd =>
      intro j h1 h2
      by_cases hji : j = i
      · subst hji
        rw [goIdx, if_pos hlt]
        exact List.mem_append_left _ hx
      · have hj : j < i := by omega
        rw [goIdx, if_pos (by omega : j < msgs.length)]
        exact List.mem_append_right _ (ihd (j + 1) (by omega) (by omega))
  exact key msgs.length 0 (by omega) (by omega)

/-- The state the backward scan resolves to is exactly the nearest
preceding non-tool message of the original list. -/
theorem prevNonTool_eq_find (msgs : List TargetMsg) :
    ∀ i, i ≤ msgs.length →
      prevNonTool msgs i = ((msgs.take i).reverse).find? (fun p => !(isToolMsg p)) := by
  intro i
  induction i with
  | zero => intro _; rfl
  | succ i ih =>
    intro hle
    have hlt : i < msgs.length := by omega
    have hget : msgs[i]? = some msgs[i] := List.getElem?_eq_getElem hlt
    have htake : msgs.take (i + 1) = msgs.take i ++ [msgs[i]] := by
      rw [List.take_succ, hget]
      rfl
    rw [htake, List.reverse_append, List.reverse_singleton, List.singleton_append]
    cases htool : isToolMsg msgs[i] with
    | true =>
      rw [prevNonTool_succ_of_tool hget htool, ih (Nat.le_of_lt hlt),
        List.find?_cons_of_neg]
      simp [htool]
    | false =>
      rw [prevNonTool_succ_of_nontool hget htool, List.find?_cons_of_pos]
      simp [htool]

/-! ## Claim theorems for the validator -/

/-- C2: the tool-pairing validator is idempotent — running
`validateOpenAIToolCalls` on its own output returns that output unchanged,
for every list of target messages — and in particular an assistant message
whose `tool_calls` are each matched by a tool message in the immediately
following contiguous run of tool-role messages is emitted completely
unchanged (as are those matching tool messages), and appears in the
output. -/
theorem c2_validator_idempotent :
    (∀ msgs : List TargetMsg,
        validateOpenAIToolCalls (validateOpenAIToolCalls msgs) =
          validateOpenAIToolCalls msgs) ∧
    (∀ (msgs : List TargetMsg) (i : Nat) (m : TargetMsg) (calls : List ToolCall),
        msgs[i]? = some m → m.role = S "assistant" → m.tool_calls = some calls →
        calls ≠ [] →
        (∀ c ∈ calls,
          ((msgs.drop (i + 1)).takeWhile isToolMsg).any (matchesCall c) = true) →
        emitAt msgs i = [m] ∧ m ∈ validateOpenAIToolCalls msgs ∧
          ∀ (k : Nat) (t : TargetMsg),
            ((msgs.drop (i + 1)).takeWhile isToolMsg)[k]? = some t →
            (∃ c ∈ calls, matchesCall c t = true) →
            emitAt msgs (i + 1 + k) = [t] ∧ t ∈ validateOpenAIToolCalls msgs) := by
  constructor
  · intro msgs
    rw [validate_eq_validateGo (validateOpenAIToolCalls msgs), validate_eq_validateGo msgs,
      validateGo_idem]
  · intro msgs i m calls hget hrole hcalls hne hall
    have h1 : emitAt msgs i = [m] := emitAt_assistant_fixed hget hrole hcalls hne hall
    refine ⟨h1, mem_validate_of_emitAt (x := m) (by rw [h1]; exact List.mem_singleton_self m), ?_⟩
    intro k t ht hmatch
    have h2 : emitAt msgs (i + 1 + k) = [t] := emitAt_tool_kept hget hrole hcalls ht hmatch
    exact ⟨h2, mem_validate_of_emitAt (x := t) (by rw [h2]; exact List.mem_singleton_self t)⟩

/-- A concrete matched assistant/tool pair used by witnesses. -/
def wCall : ToolCall := ⟨S "t1", S "f", S "1"⟩

/-- A concrete assistant message carrying `wCall`. -/
def wAsst : TargetMsg := ⟨S "assistant", TContent.null, some [wCall], none⟩

/-- A concrete tool message answering `wCall`. -/
def wTool : TargetMsg := ⟨S "tool", TContent.str (S "ok"), none, some (S "t1")⟩

/-- Witness for C2 at a concrete fully matched pair. -/
theorem c2_validator_idempotent_witness :
    emitAt [wAsst, wTool] 0 = [wAsst] ∧ wAsst ∈ validateOpenAIToolCalls [wAsst, wTool] ∧
      emitAt [wAsst, wTool] 1 = [wTool] := by
  have h := c2_validator_idempotent.2 [wAsst, wTool] 0 wAsst [wCall]
    (by decide) (by decide) (by decide) (by decide) (by decide)
  have h2 := h.2.2 0 wTool (by decide) (by decide)
  exact ⟨h.1, h.2.1, h2.1⟩

/-- C8: the validator keeps a tool-role message exactly when the nearest
preceding non-tool message — reached by skipping backward over tool-role
messages only — exists, is an assistant with a `tool_calls` field, and one
of those calls has an id equal to the tool message's `tool_call_id`; in
every other case the tool message is dropped. -/
theorem c8_tool_message_keep_iff :
    ∀ (msgs : List TargetMsg) (i : Nat) (t : TargetMsg),
      msgs[i]? = some t → isToolMsg t = true →
      emitAt msgs i = (if toolKeep (prevNonTool msgs i) t then [t] else []) ∧
      prevNonTool msgs i = ((msgs.take i).reverse).find? (fun p => !(isToolMsg p)) ∧
      (toolKeep (prevNonTool msgs i) t = true ↔
        ∃ a, prevNonTool msgs i = some a ∧ a.role = S "assistant" ∧
          ∃ calls, a.tool_calls = some calls ∧
            ∃ c ∈ calls, t.tool_call_id = some c.id) := by
  intro msgs i t hget htool
  have hnc : hasCalls t = false := tool_not_hasCalls htool
  refine ⟨?_, ?_, ?_⟩
  · simp only [emitAt, hget, hnc, Bool.false_eq_true, if_false, htool,
      eq_self_iff_true, if_true, toolDecision_eq_toolKeep]
  · exact prevNonTool_eq_find msgs i (by
      have := (List.getElem?_eq_some.mp hget).1
      omega)
  · constructor
    · intro hk
      cases hpn : prevNonTool msgs i with
      | none => rw [hpn] at hk; exact absurd hk (by rw [toolKeep]; simp)
      | some a =>
        rw [hpn] at hk
        rw [toolKeep, Bool.and_eq_true] at hk
        obtain ⟨hca, hany⟩ := hk
        obtain ⟨calls, hcalls⟩ : ∃ calls, a.tool_calls = some calls := by
          rcases Bool.and_eq_true_iff.mp hca with ⟨_, h2⟩
          exact Option.isSome_iff_exists.mp h2
        have hrole : a.role = S "assistant" := by
          rcases Bool.and_eq_true_iff.mp hca with ⟨h1, _⟩
          simpa using h1
        rw [anyCallMatches, hcalls] at hany
        simp only [Option.getD_some, List.any_eq_true] at hany
        obtain ⟨c, hc, hct⟩ := hany
        refine ⟨a, rfl, hrole, calls, hcalls, c, hc, ?_⟩
        simpa [matchesCall] using hct
    · rintro ⟨a, hpn, hrole, calls, hcalls, c, hc, hct⟩
      rw [hpn, toolKeep, Bool.and_eq_true]
      constructor
      · simp [hasCalls, hrole, hcalls]
      · rw [anyCallMatches, hcalls]
        simp only [Option.getD_some, List.any_eq_true]
        exact ⟨c, hc, by simp [matchesCall, hct]⟩

/-- Witness for C8: a tool message with no preceding message at all is
dropped. -/
theorem c8_tool_message_keep_iff_witness :
    emitAt [wTool] 0 = [] := by
  have h := c8_tool_message_keep_iff [wTool] 0 wTool (by decide) (by decide)
  rw [h.1]
  rfl

/-! ## formatRequest — source-to-target message translation

Faithful embedding of the `formatRequest` middleware.  Note: the source
appends the two-character literal `\x5cn` (backslash, `n`) after every text
block — the TypeScript files write `"\x5c\x5cn"`, i.e. an escaped
backslash, not a newline — and then trims, which never removes those two
characters.  The embedding reproduces this exactly. -/

/-- A content block of a source (Anthropic-format) message.  The `text`
field of a text block is a string (the source defends against non-string
`text` with `JSON.stringify`; that branch is unreachable for well-typed
blocks and is not modelled). -/
inductive SPart where
  | text (t : JStr)
  | toolUse (id : JStr) (name : JStr) (input : JsonV)
  | toolResult (tool_use_id : JStr) (content : JsonV)

/-- Content of a source message: a plain string, an array of typed content
blocks, or any other value (e.g. null/undefined), which translates to no
message at all. -/
inductive SContent where
  | str (s : JStr)
  | arr (parts : List SPart)
  | otherVal

/-- A source message. -/
structure SourceMsg where
  role : JStr
  content : SContent

/-- The two-character separator `\x5cn` the source appends after each text
block (source text: `+ "\x5c\x5cn"`). -/
def sepBS : JStr := S "\\n"

/-- `typeof v === "string" ? v : JSON.stringify(v)`. -/
def strOrStringify : JsonV → JStr
  | .jstr s => s
  | v => stringifyJson v

/-- The JSON object form of a content block, for
`JSON.stringify(contentPart)` in the fallback branch. -/
def partToJson : SPart → JsonV
  | .text t => .jobj [(S "type", .jstr (S "text")), (S "text", .jstr t)]
  | .toolUse i n input =>
      .jobj [(S "type", .jstr (S "tool_use")), (S "id", .jstr i),
             (S "name", .jstr n), (S "input", input)]
  | .toolResult tu c =>
      .jobj [(S "type", .jstr (S "tool_result")), (S "tool_use_id", .jstr tu),
             (S "content", c)]

/-- Concatenation of the text blocks, each followed by the `\x5cn`
separator (tool blocks contribute nothing). -/
def textConcat (parts : List SPart) : JStr :=
  (parts.map (fun p => match p with
    | .text t => t ++ sepBS
    | _ => [])).flatten

/-- Concatenation used in the fallback branch for other roles: text blocks
as text, any other block `JSON.stringify`-ed, each followed by `\x5cn`. -/
def otherConcat (parts : List SPart) : JStr :=
  (parts.map (fun p => match p with
    | .text t => t ++ sepBS
    | p' => stringifyJson (partToJson p') ++ sepBS)).flatten

/-- The assistant branch: text blocks accumulate into one trimmed string,
tool-use blocks become `tool_calls`; the message is emitted only when it
has content or calls. -/
def translateAsst (parts : List SPart) : List TargetMsg :=
  let trimmed := jsTrim (textConcat parts)
  let toolCalls := parts.filterMap (fun p => match p with
    | .toolUse i n input => some (⟨i, n, stringifyJson input⟩ : ToolCall)
    | _ => none)
  if !trimmed.isEmpty || !toolCalls.isEmpty then
    [⟨S "assistant", if trimmed.isEmpty then TContent.null else TContent.str trimmed,
      if toolCalls.isEmpty then none else some toolCalls, none⟩]
  else []

/-- The user branch: text blocks accumulate into one trimmed string
(emitted only when non-empty); each tool-result block becomes its own
`tool` message after it. -/
def translateUser (parts : List SPart) : List TargetMsg :=
  let trimmed := jsTrim (textConcat parts)
  let toolMsgs := parts.filterMap (fun p => match p with
    | .toolResult tu c =>
        some (⟨S "tool", TContent.str (strOrStringify c), none, some tu⟩ : TargetMsg)
    | _ => none)
  (if trimmed.isEmpty then [] else [⟨S "user", TContent.str trimmed, none, none⟩]) ++ toolMsgs

/-- The fallback branch for any other role. -/
def translateOther (role : JStr) (parts : List SPart) : List TargetMsg :=
  let trimmed := jsTrim (otherConcat parts)
  if trimmed.isEmpty then [] else [⟨role, TContent.str trimmed, none, none⟩]

/-- Per-source-message translation (the body of the `flatMap`). -/
def translateMsg (m : SourceMsg) : List TargetMsg :=
  match m.content with
  | .str s => [⟨m.role, TContent.str s, none, none⟩]
  | .otherVal => []
  | .arr parts =>
    if m.role == S "assistant" then translateAsst parts
    else if m.role == S "user" then translateUser parts
    else translateOther m.role parts

/-- The full `messages.flatMap(...)` translation. -/
def translateMessages (msgs : List SourceMsg) : List TargetMsg :=
  (msgs.map translateMsg).flatten

/-- The inbound `system` field: a bare string or an array of entries
(each with a `text` field). -/
inductive SysField where
  | str (s : JStr)
  | entries (ts : List JStr)

/-- The `systemMessages` construction: one `system` message per entry (or
one for a bare string), each with exactly one text block carrying
`cache_control: {type:"ephemeral"}` from the start. -/
def systemMessages : SysField → List TargetMsg
  | .entries ts => ts.map (fun t => ⟨S "system", TContent.blocks [⟨S "text", t, true⟩], none, none⟩)
  | .str s => [⟨S "system", TContent.blocks [⟨S "text", s, true⟩], none, none⟩]

/-- The cache-annotation step applied to one message (the last one):
string content is rewrapped as a single marked text block; array content
gets the marker on its last block only if that block's type is `text`;
anything else (null content) is left alone. -/
def annotMsg (m : TargetMsg) : TargetMsg :=
  match m.content with
  | .str s => { m with content := TContent.blocks [⟨S "text", s, true⟩] }
  | .blocks bs =>
    match bs.getLast? with
    | some lastB =>
      if lastB.btype == S "text" then
        { m with content := TContent.blocks (bs.dropLast ++ [{ lastB with cacheControl := true }]) }
      else m
    | none => m
  | .null => m

/-- `if (data.messages.length > 0) { … }`: annotate the final message. -/
def annotateLast (msgs : List TargetMsg) : List TargetMsg :=
  match msgs.getLast? with
  | none => msgs
  | some lastM => msgs.dropLast ++ [annotMsg lastM]

/-- The assembled `data.messages`: system messages, then the validated
translation, with the cache-annotation pass applied at the end. -/
def formatRequestMessages (msgs : List SourceMsg) (sys : SysField) : List TargetMsg :=
  annotateLast (systemMessages sys ++ validateOpenAIToolCalls (translateMessages msgs))

/-! ## C4 — the concrete single-user-message scenario

The spec expects the translated user text to be `Hi`; because the source
appends the literal two-character sequence `\x5cn` (its files contain the
escaped string `"\x5c\x5cn"` where a newline `"\x5cn"` was clearly
intended — the following `.trim()` only makes sense for real whitespace),
the code produces `Hi\x5cn` instead. -/

/-- C4 (code bug): on input `[{role:"user", content:[{type:"text",
text:"Hi"}]}]` with system `"You are helpful"` the code produces the two
expected messages, but the user text block reads `Hi` followed by a
literal backslash and `n` — not `Hi` as the spec states — because the
source appends the escaped string `"\x5c\x5cn"` instead of a newline
before trimming. -/
theorem c4_user_text_gets_literal_backslash_n :
    formatRequestMessages [⟨S "user", SContent.arr [SPart.text (S "Hi")]⟩]
        (SysField.str (S "You are helpful")) =
      [⟨S "system", TContent.blocks [⟨S "text", S "You are helpful", true⟩], none, none⟩,
       ⟨S "user", TContent.blocks [⟨S "text", S "Hi\\n", true⟩], none, none⟩] ∧
    S "Hi\\n" ≠ S "Hi" := by
  constructor
  · decide
  · decide

/-! ## C3 — no empty assistant messages -/

/-- An assistant message with empty-or-absent content and no `tool_calls`
(the shape invariant 3 of the spec forbids). -/
def emptyAssistantNoCalls (m : TargetMsg) : Bool :=
  m.role == S "assistant" && !(truthyContent m.content) && m.tool_calls == none

/-- Counterexample to C3 as stated: a source assistant message whose
content is the empty string is passed through the string-content
short-circuit verbatim and survives validation (an assistant without a
`tool_calls` field takes the pass-through branch), so the target list
contains an assistant message with empty content and no `tool_calls`. -/
theorem c3_counterexample :
    ∃ m ∈ systemMessages (SysField.entries []) ++
        validateOpenAIToolCalls (translateMessages [⟨S "assistant", SContent.str []⟩]),
      emptyAssistantNoCalls m = true := by
  decide

/-- Shape of every message the translation can produce: content is a
plain string (non-empty when the role is `assistant`), or `null` on an
assistant message carrying `tool_calls`; never a block array. -/
def goodShape (z : TargetMsg) : Bool :=
  match z.content with
  | .str s => !(z.role == S "assistant") || !s.isEmpty
  | .null => z.role == S "assistant" && z.tool_calls.isSome
  | .blocks _ => false

theorem goodShape_assistant {z : TargetMsg} (hg : goodShape z = true)
    (hr : z.role = S "assistant") :
    truthyContent z.content = true ∨ z.tool_calls ≠ none := by
  rw [goodShape] at hg
  cases hcon : z.content with
  | str s =>
    rw [hcon] at hg
    have hb : (z.role == S "assistant") = true := by simp [hr]
    rw [hb] at hg
    simp only [Bool.not_true, Bool.false_or, Bool.not_eq_true'] at hg
    left
    simp [truthyContent, hcon, hg]
  | null =>
    rw [hcon] at hg
    right
    have := (Bool.and_eq_true_iff.mp hg).2
    intro hcon2
    rw [hcon2] at this
    simp at this
  | blocks bs =>
    rw [hcon] at hg
    simp at hg

theorem translateAsst_goodShape (parts : List SPart) :
    ∀ z ∈ translateAsst parts, goodShape z = true := by
  intro z hz
  simp only [translateAsst] at hz
  split at hz
  · next hk =>
    have hzm := List.mem_singleton.mp hz
    subst hzm
    by_cases he : (jsTrim (textConcat parts)).isEmpty = true
    · have hcne : (parts.filterMap (fun p => match p with
          | .toolUse i n input => some (⟨i, n, stringifyJson input⟩ : ToolCall)
          | _ => none)).isEmpty = false := by
        rcases Bool.or_eq_true_iff.mp hk with h1 | h2
        · rw [he] at h1; simp at h1
        · simpa using h2
      simp [goodShape, he, hcne]
    · have he' : (jsTrim (textConcat parts)).isEmpty = false := by
        cases hx : (jsTrim (textConcat parts)).isEmpty
        · rfl
        · exact absurd hx he
      simp [goodShape, he']
  · simp at hz

theorem translateUser_goodShape (parts : List SPart) :
    ∀ z ∈ translateUser parts, goodShape z = true := by
  intro z hz
  simp only [translateUser] at hz
  rcases List.mem_append.mp hz with h1 | h2
  · split at h1
    · simp at h1
    · next he =>
      have hzm := List.mem_singleton.mp h1
      subst hzm
      simp only [goodShape]
      simp only [Bool.or_eq_true, Bool.not_eq_true']
      left
      decide
  · rw [List.mem_filterMap] at h2
    obtain ⟨p, _, hp⟩ := h2
    cases p with
    | toolResult tu c =>
      simp only [Option.some.injEq] at hp
      subst hp
      simp only [goodShape]
      simp only [Bool.or_eq_true, Bool.not_eq_true']
      left
      decide
    | text t => simp at hp
    | toolUse a b c => simp at hp

theorem translateOther_goodShape (role : JStr) (parts : List SPart)
    (hrole : (role == S "assistant") = false) :
    ∀ z ∈ translateOther role parts, goodShape z = true := by
  intro z hz
  simp only [translateOther] at hz
  split at hz
  · simp at hz
  · next he =>
    have hzm := List.mem_singleton.mp hz
    subst hzm
    simp [goodShape, hrole]

theorem translateMessages_goodShape :
    ∀ (msgs : List SourceMsg),
      (∀ m ∈ msgs, m.role = S "assistant" → ∀ s, m.content = SContent.str s → ¬s.isEmpty) →
      ∀ z ∈ translateMessages msgs, goodShape z = true := by
  intro msgs h z hz
  rw [translateMessages, List.mem_flatten] at hz
  obtain ⟨l, hl, hzl⟩ := hz
  rw [List.mem_map] at hl
  obtain ⟨sm, hsm, rfl⟩ := hl
  obtain ⟨srole, scon⟩ := sm
  cases scon with
  | str s =>
    simp only [translateMsg] at hzl
    have hzm := List.mem_singleton.mp hzl
    subst hzm
    rw [goodShape]
    by_cases ha : (srole == S "assistant") = true
    · have hemp : ¬s.isEmpty = true :=
        h ⟨srole, SContent.str s⟩ hsm (by simpa using ha) s rfl
      have hemp' : s.isEmpty = false := by
        cases hx : s.isEmpty
        · rfl
        · exact absurd hx hemp
      simp [ha, hemp']
    · have ha' : (srole == S "assistant") = false := by
        cases hx : srole == S "assistant"
        · rfl
        · exact absurd hx ha
      simp [ha']
  | otherVal => simp [translateMsg] at hzl
  | arr parts =>
    simp only [translateMsg] at hzl
    split at hzl
    · exact translateAsst_goodShape parts z hzl
    · split at hzl
      · exact translateUser_goodShape parts z hzl
      · next ha _ =>
        have ha' : (srole == S "assistant") = false := by
          cases hx : srole == S "assistant"
          · rfl
          · exact absurd hx ha
        exact translateOther_goodShape srole parts ha' z hzl

theorem validateGo_goodShape :
    ∀ (xs : List TargetMsg) (lnt : Option TargetMsg),
      (∀ m ∈ xs, goodShape m = true) →
      ∀ z ∈ validateGo lnt xs, goodShape z = true := by
  intro xs
  induction xs with
  | nil => intro lnt _ z hz; simp [validateGo] at hz
  | cons m rest ih =>
    intro lnt hgood z hz
    have hm := hgood m (by simp)
    have hrest : ∀ m' ∈ rest, goodShape m' = true := fun m' h' => hgood m' (by simp [h'])
    cases hc : hasCalls m with
    | true =>
      rw [validateGo, if_pos hc] at hz
      rcases List.mem_append.mp hz with h1 | h2
      · rw [processAssistant_eq] at h1
        split at h1
        · next hk =>
          have hzm := List.mem_singleton.mp h1
          subst hzm
          rw [goodShape] at hm ⊢
          cases hcon : m.content with
          | str s =>
            rw [hcon] at hm
            simpa [hcon] using hm
          | null =>
            rw [hcon] at hm
            rw [hcon] at hk
            have hvne : (validCallsFor (m.tool_calls.getD [])
                (rest.takeWhile isToolMsg)).isEmpty = false := by
              rcases Bool.or_eq_true_iff.mp hk with hk1 | hk2
              · simp [truthyContent] at hk1
              · simpa using hk2
            simp only [hcon]
            have hrb := (Bool.and_eq_true_iff.mp hm).1
            simp [hrb, hvne]
          | blocks bs =>
            rw [hcon] at hm
            simp at hm
        · simp at h1
      · exact ih (some m) hrest z h2
    | false =>
      cases ht : isToolMsg m with
      | true =>
        rw [validateGo] at hz
        simp only [hc, Bool.false_eq_true, if_false, ht, eq_self_iff_true, if_true] at hz
        rcases List.mem_append.mp hz with h1 | h2
        · have hzm : z = m := by
            cases hk : toolKeep lnt m <;> rw [hk] at h1 <;> simp at h1
            exact h1
          subst hzm
          exact hm
        · exact ih lnt hrest z h2
      | false =>
        rw [validateGo] at hz
        simp only [hc, Bool.false_eq_true, if_false, ht] at hz
        rcases List.mem_cons.mp hz with h1 | h2
        · subst h1
          exact hm
        · exact ih (some m) hrest z h2

/-- C3 (amended): provided no source assistant message carries the empty
string as plain string content — the string-content short-circuit copies
such content verbatim, which is the one way an empty assistant message can
arise — the list produced by translation followed by validation (with the
system messages prepended) contains no assistant message with empty or
absent content and no `tool_calls`, and hence no two adjacent such
messages. -/
theorem c3_no_empty_assistant_amended :
    ∀ (msgs : List SourceMsg) (sys : SysField),
      (∀ m ∈ msgs, m.role = S "assistant" → ∀ s, m.content = SContent.str s → ¬s.isEmpty) →
      (∀ t ∈ systemMessages sys ++ validateOpenAIToolCalls (translateMessages msgs),
          emptyAssistantNoCalls t = false) ∧
      (∀ (j : Nat) (a b : TargetMsg),
          (systemMessages sys ++ validateOpenAIToolCalls (translateMessages msgs))[j]? = some a →
          (systemMessages sys ++ validateOpenAIToolCalls (translateMessages msgs))[j + 1]? = some b →
          ¬(emptyAssistantNoCalls a = true ∧ emptyAssistantNoCalls b = true)) := by
  intro msgs sys h
  have main : ∀ t ∈ systemMessages sys ++ validateOpenAIToolCalls (translateMessages msgs),
      emptyAssistantNoCalls t = false := by
    intro t htm
    rcases List.mem_append.mp htm with h1 | h2
    · -- a system message is not an assistant message
      have hrole : t.role = S "system" := by
        cases sys with
        | str s =>
          simp only [systemMessages] at h1
          have := List.mem_singleton.mp h1
          subst this
          rfl
        | entries ts =>
          simp only [systemMessages] at h1
          rw [List.mem_map] at h1
          obtain ⟨e, _, rfl⟩ := h1
          rfl
      rw [emptyAssistantNoCalls, hrole]
      simp [S]
    · rw [validate_eq_validateGo] at h2
      have hgs := validateGo_goodShape (translateMessages msgs) none
        (translateMessages_goodShape msgs h) t h2
      rw [emptyAssistantNoCalls]
      by_cases hrole : t.role = S "assistant"
      · rcases goodShape_assistant hgs hrole with hcontent | hcalls
        · simp [hcontent]
        · have : (t.tool_calls == none) = false := by
            cases htc : t.tool_calls with
            | none => exact absurd htc hcalls
            | some l => rfl
          simp [this]
      · have : (t.role == S "assistant") = false := by
          cases hx : t.role == S "assistant"
          · rfl
          · exact absurd (by simpa using hx) hrole
        simp [this]
  refine ⟨main, ?_⟩
  intro j a b ha _ hab
  have := main a (List.getElem?_mem ha)
  rw [hab.1] at this
  exact Bool.true_eq_false.mp this

/-! ## C5 — cache-control annotation -/

/-- Weak shape invariant of translated messages, with no assumption on the
source: content is a plain string, or `null` on an assistant carrying
`tool_calls`; never a block array. -/
def okShape (z : TargetMsg) : Bool :=
  match z.content with
  | .str _ => true
  | .null => z.role == S "assistant" && z.tool_calls.isSome
  | .blocks _ => false

theorem okShape_no_blocks {z : TargetMsg} (hg : okShape z = true) :
    ∀ bs, z.content ≠ TContent.blocks bs := by
  intro bs hcon
  rw [okShape, hcon] at hg
  simp at hg

theorem translateMessages_okShape :
    ∀ (msgs : List SourceMsg), ∀ z ∈ translateMessages msgs, okShape z = true := by
  intro msgs z hz
  rw [translateMessages, List.mem_flatten] at hz
  obtain ⟨l, hl, hzl⟩ := hz
  rw [List.mem_map] at hl
  obtain ⟨sm, hsm, rfl⟩ := hl
  obtain ⟨srole, scon⟩ := sm
  cases scon with
  | str s =>
    simp only [translateMsg] at hzl
    have hzm := List.mem_singleton.mp hzl
    subst hzm
    rfl
  | otherVal => simp [translateMsg] at hzl
  | arr parts =>
    simp only [translateMsg] at hzl
    split at hzl
    · simp only [translateAsst] at hzl
      split at hzl
      · next hk =>
        have hzm := List.mem_singleton.mp hzl
        subst hzm
        by_cases he : (jsTrim (textConcat parts)).isEmpty = true
        · have hcne : (parts.filterMap (fun p => match p with
              | .toolUse i n input => some (⟨i, n, stringifyJson input⟩ : ToolCall)
              | _ => none)).isEmpty = false := by
            rcases Bool.or_eq_true_iff.mp hk with h1 | h2
            · rw [he] at h1; simp at h1
            · simpa using h2
          simp [okShape, he, hcne]
        · have he' : (jsTrim (textConcat parts)).isEmpty = false := by
            cases hx : (jsTrim (textConcat parts)).isEmpty
            · rfl
            · exact absurd hx he
          simp [okShape, he']
      · simp at hzl
    · split at hzl
      · simp only [translateUser] at hzl
        rcases List.mem_append.mp hzl with h1 | h2
        · split at h1
          · simp at h1
          · have hzm := List.mem_singleton.mp h1
            subst hzm
            rfl
        · rw [List.mem_filterMap] at h2
          obtain ⟨p, _, hp⟩ := h2
          cases p with
          | toolResult tu c =>
            simp only [Option.some.injEq] at hp
            subst hp
            rfl
          | text t => simp at hp
          | toolUse a b c => simp at hp
      · simp only [translateOther] at hzl
        split at hzl
        · simp at hzl
        · have hzm := List.mem_singleton.mp hzl
          subst hzm
          rfl

theorem validateGo_okShape :
    ∀ (xs : List TargetMsg) (lnt : Option TargetMsg),
      (∀ m ∈ xs, okShape m = true) →
      ∀ z ∈ validateGo lnt xs, okShape z = true := by
  intro xs
  induction xs with
  | nil => intro lnt _ z hz; simp [validateGo] at hz
  | cons m rest ih =>
    intro lnt hgood z hz
    have hm := hgood m (by simp)
    have hrest : ∀ m' ∈ rest, okShape m' = true := fun m' h' => hgood m' (by simp [h'])
    cases hc : hasCalls m with
    | true =>
      rw [validateGo, if_pos hc] at hz
      rcases List.mem_append.mp hz with h1 | h2
      · rw [processAssistant_eq] at h1
        split at h1
        · next hk =>
          have hzm := List.mem_singleton.mp h1
          subst hzm
          rw [okShape] at hm ⊢
          cases hcon : m.content with
          | str s => simp [hcon]
          | null =>
            rw [hcon] at hm
            rw [hcon] at hk
            have hvne : (validCallsFor (m.tool_calls.getD [])
                (rest.takeWhile isToolMsg)).isEmpty = false := by
              rcases Bool.or_eq_true_iff.mp hk with hk1 | hk2
              · simp [truthyContent] at hk1
              · simpa using hk2
            simp only [hcon]
            have hrb := (Bool.and_eq_true_iff.mp hm).1
            simp [hrb, hvne]
          | blocks bs =>
            rw [hcon] at hm
            simp at hm
        · simp at h1
      · exact ih (some m) hrest z h2
    | false =>
      cases ht : isToolMsg m with
      | true =>
        rw [validateGo] at hz
        simp only [hc, Bool.false_eq_true, if_false, ht, eq_self_iff_true, if_true] at hz
        rcases List.mem_append.mp hz with h1 | h2
        · have hzm : z = m := by
            cases hk : toolKeep lnt m <;> rw [hk] at h1 <;> simp at h1
            exact h1
          subst hzm
          exact hm
        · exact ih lnt hrest z h2
      | false =>
        rw [validateGo] at hz
        simp only [hc, Bool.false_eq_true, if_false, ht] at hz
        rcases List.mem_cons.mp hz with h1 | h2
        · subst h1
          exact hm
        · exact ih (some m) hrest z h2

theorem okShape_content_str_of_no_calls {m : TargetMsg} (hg : okShape m = true)
    (hc : hasCalls m = false) : ∃ s, m.content = TContent.str s := by
  cases hcon : m.content with
  | str s => exact ⟨s, rfl⟩
  | null =>
    exfalso
    simp only [okShape, hcon] at hg
    rw [hasCalls, hg] at hc
    exact Bool.true_eq_false.mp hc
  | blocks bs =>
    exfalso
    simp only [okShape, hcon] at hg
    exact Bool.false_ne_true hg

/-- If the validator's output is non-empty, its last message has string
content (an assistant kept with `null` content always has surviving calls,
hence a surviving tool message after it). -/
theorem validateGo_last_str :
    ∀ (xs : List TargetMsg) (lnt : Option TargetMsg),
      (∀ m ∈ xs, okShape m = true) →
      validateGo lnt xs = [] ∨
        ∃ z s, (validateGo lnt xs).getLast? = some z ∧ z.content = TContent.str s := by
  intro xs
  induction xs with
  | nil => intro lnt _; left; rfl
  | cons m rest ih =>
    intro lnt hgood
    have hm := hgood m (by simp)
    have hrest : ∀ m' ∈ rest, okShape m' = true := fun m' h' => hgood m' (by simp [h'])
    cases hc : hasCalls m with
    | false =>
      cases ht : isToolMsg m with
      | true =>
        have hout : validateGo lnt (m :: rest) =
            (if toolKeep lnt m then [m] else []) ++ validateGo lnt rest := by
          rw [validateGo]; simp [hc, ht]
        rcases ih lnt hrest with hnil | ⟨z, s, hz, hzs⟩
        · rw [hout, hnil, List.append_nil]
          cases hk : toolKeep lnt m with
          | false => left; simp
          | true =>
            right
            obtain ⟨s, hs⟩ := okShape_content_str_of_no_calls hm hc
            exact ⟨m, s, by simp, hs⟩
        · right
          have hne : validateGo lnt rest ≠ [] := by
            intro hh; rw [hh] at hz; simp at hz
          rw [hout, List.getLast?_append_of_ne_nil _ hne]
          exact ⟨z, s, hz, hzs⟩
      | false =>
        have hout : validateGo lnt (m :: rest) = m :: validateGo (some m) rest := by
          rw [validateGo]; simp [hc, ht]
        rcases ih (some m) hrest with hnil | ⟨z, s, hz, hzs⟩
        · rw [hout, hnil]
          right
          obtain ⟨s, hs⟩ := okShape_content_str_of_no_calls hm hc
          exact ⟨m, s, by simp, hs⟩
        · right
          rw [hout, List.getLast?_cons, hz]
          exact ⟨z, s, rfl, hzs⟩
    | true =>
      have hout : validateGo lnt (m :: rest) =
          processAssistant m (m.tool_calls.getD []) (rest.takeWhile isToolMsg) ++
            validateGo (some m) rest := by
        rw [validateGo, if_pos hc]
      rw [hout, processAssistant_eq]
      split
      · next hk =>
        rcases ih (some m) hrest with hnil | ⟨z, s, hz, hzs⟩
        · rw [hnil, List.append_nil]
          -- singleton output; its content is the (string) content of `m`
          cases hcon : m.content with
          | str s =>
            right
            refine ⟨_, s, List.getLast?_singleton _, rfl⟩
          | blocks bs =>
            rw [okShape, hcon] at hm
            simp at hm
          | null =>
            -- null content kept means surviving calls, and a surviving call
            -- has a matching surviving tool message in the output of `rest`,
            -- contradicting `validateGo (some m) rest = []`
            exfalso
            rw [hcon] at hk
            have hvne : ¬(validCallsFor (m.tool_calls.getD [])
                (rest.takeWhile isToolMsg)).isEmpty = true := by
              rcases Bool.or_eq_true_iff.mp hk with hk1 | hk2
              · simp [truthyContent] at hk1
              · simpa using hk2
            obtain ⟨calls, hcalls⟩ : ∃ calls, m.tool_calls = some calls := by
              rcases Bool.and_eq_true_iff.mp hc with ⟨_, h2⟩
              exact Option.isSome_iff_exists.mp h2
            rcases hvv : validCallsFor (m.tool_calls.getD [])
                (rest.takeWhile isToolMsg) with _ | ⟨c, cs⟩
            · rw [hvv] at hvne; simp at hvne
            · have hcmem : c ∈ validCallsFor (m.tool_calls.getD [])
                  (rest.takeWhile isToolMsg) := by rw [hvv]; simp
              rw [validCallsFor, List.mem_filter] at hcmem
              obtain ⟨hcc, hcany⟩ := hcmem
              rw [List.any_eq_true] at hcany
              obtain ⟨t, htrun, hmt⟩ := hcany
              have hkt : toolKeep (some m) t = true := by
                rw [toolKeep_some_iff hcalls hc]
                refine ⟨c, ?_, hmt⟩
                rw [hcalls] at hcc
                simpa using hcc
              have htf : t ∈ (rest.takeWhile isToolMsg).filter (toolKeep (some m)) :=
                List.mem_filter.mpr ⟨htrun, hkt⟩
              have : t ∈ validateGo (some m) rest := by
                rw [validateGo_front (some m) rest]
                exact List.mem_append_left _ htf
              rw [hnil] at this
              simp at this
        · right
          have hne : validateGo (some m) rest ≠ [] := by
            intro hh; rw [hh] at hz; simp at hz
          rw [List.getLast?_append_of_ne_nil _ hne]
          exact ⟨z, s, hz, hzs⟩
      · rcases ih (some m) hrest with hnil | ⟨z, s, hz, hzs⟩
        · left; rw [hnil]; rfl
        · right
          rw [List.nil_append]
          exact ⟨z, s, hz, hzs⟩

/-- The number of cache-marked blocks carried by non-system messages. -/
def nonSystemMarked (msgs : List TargetMsg) : Nat :=
  (msgs.map (fun m =>
    if m.role == S "system" then 0
    else match m.content with
      | TContent.blocks bs => (bs.filter (fun b => b.cacheControl)).length
      | _ => 0)).sum

/-- Counterexample to C5 as stated: when no translated message survives
(here: no source messages at all) the assembled list is non-empty but
consists of system messages only, so the marked blocks are exactly the
system blocks and no further content block carries the marker — the claim
demands exactly one further marked block. -/
theorem c5_counterexample :
    formatRequestMessages [] (SysField.str (S "x")) ≠ [] ∧
    nonSystemMarked (formatRequestMessages [] (SysField.str (S "x"))) = 0 := by
  constructor
  · decide
  · decide

theorem annotMsg_marked_sys {m : TargetMsg} {t : JStr}
    (h : m.content = TContent.blocks [⟨S "text", t, true⟩]) : annotMsg m = m := by
  rw [annotMsg, h]
  simp only [List.getLast?_singleton]
  have hb : ((⟨S "text", t, true⟩ : CBlock).btype == S "text") = true := by
    simp [S]
  rw [if_pos hb]
  simp only [List.dropLast_single, List.nil_append]
  cases m
  simp_all

/-- C5 (amended): in the assembled non-empty target list, every system
message consists of exactly one text block already carrying the ephemeral
marker; when no translated message survives validation the assembled list
is exactly those system messages (the annotation step re-marks the last
system block, a no-op) and no further content block exists at all, while
when at least one translated message survives, the last message has plain
string content which the annotation rewraps into a single marked text
block, and no other message outside the system prefix carries any content
block whatsoever. -/
theorem c5_cache_annotation_amended :
    ∀ (msgs : List SourceMsg) (sys : SysField),
      systemMessages sys ++ validateOpenAIToolCalls (translateMessages msgs) ≠ [] →
      (∀ m ∈ systemMessages sys, ∃ t, m.content = TContent.blocks [⟨S "text", t, true⟩]) ∧
      (validateOpenAIToolCalls (translateMessages msgs) = [] →
        formatRequestMessages msgs sys = systemMessages sys) ∧
      (validateOpenAIToolCalls (translateMessages msgs) ≠ [] →
        ∃ z s, (validateOpenAIToolCalls (translateMessages msgs)).getLast? = some z ∧
          z.content = TContent.str s ∧
          formatRequestMessages msgs sys =
            systemMessages sys ++
              (validateOpenAIToolCalls (translateMessages msgs)).dropLast ++
              [{ z with content := TContent.blocks [⟨S "text", s, true⟩] }] ∧
          (∀ m ∈ (validateOpenAIToolCalls (translateMessages msgs)).dropLast,
            ∀ bs, m.content ≠ TContent.blocks bs)) := by
  intro msgs sys hne
  set val := validateOpenAIToolCalls (translateMessages msgs) with hval
  have hsysMarked : ∀ m ∈ systemMessages sys,
      ∃ t, m.content = TContent.blocks [⟨S "text", t, true⟩] := by
    intro m hm
    cases sys with
    | str s =>
      simp only [systemMessages] at hm
      have := List.mem_singleton.mp hm
      subst this
      exact ⟨s, rfl⟩
    | entries ts =>
      simp only [systemMessages] at hm
      rw [List.mem_map] at hm
      obtain ⟨e, _, rfl⟩ := hm
      exact ⟨e, rfl⟩
  have hvalShape : ∀ z ∈ val, okShape z = true := by
    intro z hz
    rw [hval, validate_eq_validateGo] at hz
    exact validateGo_okShape (translateMessages msgs) none
      (translateMessages_okShape msgs) z hz
  refine ⟨hsysMarked, ?_, ?_⟩
  · intro hvnil
    rw [formatRequestMessages, ← hval, hvnil, List.append_nil]
    rw [annotateLast]
    cases hgl : (systemMessages sys).getLast? with
    | none => rfl
    | some lastM =>
      have hmem : lastM ∈ systemMessages sys := by
        have hx : lastM ∈ (systemMessages sys).getLast? := by rw [hgl]; rfl
        obtain ⟨hne', heq⟩ := List.mem_getLast?_eq_getLast hx
        rw [heq]
        exact List.getLast_mem hne'
      obtain ⟨t, ht⟩ := hsysMarked lastM hmem
      show (systemMessages sys).dropLast ++ [annotMsg lastM] = systemMessages sys
      rw [annotMsg_marked_sys ht]
      exact List.dropLast_append_getLast? lastM hgl
  · intro hvne
    have hls := validateGo_last_str (translateMessages msgs) none
      (translateMessages_okShape msgs)
    rw [← validate_eq_validateGo, ← hval] at hls
    rcases hls with hnil | ⟨z, s, hz, hzs⟩
    · exact absurd hnil hvne
    refine ⟨z, s, hz, hzs, ?_, ?_⟩
    · rw [formatRequestMessages, ← hval]
      rw [annotateLast]
      have hgl : (systemMessages sys ++ val).getLast? = some z := by
        rw [List.getLast?_append_of_ne_nil _ hvne]
        exact hz
      rw [hgl]
      show (systemMessages sys ++ val).dropLast ++ [annotMsg z] =
        systemMessages sys ++ val.dropLast ++
          [{ z with content := TContent.blocks [⟨S "text", s, true⟩] }]
      have hdl : (systemMessages sys ++ val).dropLast =
          systemMessages sys ++ val.dropLast := by
        cases hv : val with
        | nil => exact absurd hv hvne
        | cons b tl => simp [List.dropLast_append_cons]
      rw [hdl]
      have hann : annotMsg z = { z with content := TContent.blocks [⟨S "text", s, true⟩] } := by
        rw [annotMsg, hzs]
      rw [hann, List.append_assoc]
    · intro m hm bs
      exact okShape_no_blocks (hvalShape m ((List.dropLast_sublist val).mem hm)) bs

/-- Witness for the amended C5 at a concrete input (no source messages:
the assembled list is exactly the marked system message). -/
theorem c5_cache_annotation_amended_witness :
    formatRequestMessages [] (SysField.str (S "x")) =
      systemMessages (SysField.str (S "x")) := by
  have h := c5_cache_annotation_amended [] (SysField.str (S "x")) (by decide)
  exact h.2.1 (by decide)

/-- Witness for the amended C3 at a concrete input. -/
theorem c3_no_empty_assistant_amended_witness :
    emptyAssistantNoCalls (⟨S "assistant", TContent.str (S "hello"), none, none⟩ : TargetMsg)
      = false := by
  have h := c3_no_empty_assistant_amended [⟨S "assistant", SContent.str (S "hello")⟩]
    (SysField.entries []) (by
      intro m hm hrole s hcon
      have hme : m = ⟨S "assistant", SContent.str (S "hello")⟩ := List.mem_singleton.mp hm
      subst hme
      simp only at hcon
      injection hcon with he
      subst he
      decide)
  exact h.1 _ (by decide)

/-! ## Streaming Response Decoder (the `/v1/messages` handler's async
iterator)

The handler reads raw bytes, decodes them statefully (`TextDecoder` with
`stream: true` holds back a trailing incomplete UTF-8 sequence), appends
to a pending-text buffer, splits on `\'\\n\'`, holds back the final fragment,
and per complete line: skips blank lines and lines not starting with
`data: `, strips the 6-character prefix, trims, skips the `[DONE]`
sentinel, and yields `JSON.parse` of the payload, skipping lines that fail
to parse.  On end of source the held-back buffer is processed once more if
non-blank.  `JSON.parse` is a platform builtin; it is modelled as an
abstract `parse : JStr -> Option J` parameter (`none` = exception). -/

/-- Is the byte a UTF-8 continuation byte? -/
def isContB (b : Nat) : Bool := decide (0x80 ≤ b) && decide (b < 0xC0)

/-- Declared sequence length of a UTF-8 lead byte (1 for ASCII and for
bytes consumed singly as invalid). -/
def utf8NeedLen (b : Nat) : Nat :=
  if b < 0x80 then 1
  else if b < 0xC0 then 1
  else if b < 0xE0 then 2
  else if b < 0xF0 then 3
  else if b < 0xF8 then 4
  else 1

/-- Length of the trailing incomplete UTF-8 sequence `TextDecoder` holds
back between `decode(…, {stream: true})` calls. -/
def pendingLen (bs : List Nat) : Nat :=
  match bs.reverse with
  | [] => 0
  | b1 :: r1 =>
    if utf8NeedLen b1 > 1 then 1
    else if isContB b1 then
      match r1 with
      | [] => 0
      | b2 :: r2 =>
        if utf8NeedLen b2 > 2 then 2
        else if isContB b2 then
          match r2 with
          | [] => 0
          | b3 :: _ => if utf8NeedLen b3 > 3 then 3 else 0
        else 0
    else 0

/-- The Unicode replacement character `TextDecoder` substitutes for
invalid sequences. -/
def replChar : Char := Char.ofNat 0xFFFD

/-- UTF-8 decoding of a complete byte sequence (invalid bytes become the
replacement character; never reached by the claims' inputs), written as a
byte-level state machine: `need` continuation bytes are still expected for
the code point accumulated in `acc`. -/
structure Utf8State where
  need : Nat
  acc : Nat

/-- Dispatch on a byte in the initial state. -/
def utf8Lead (b : Nat) : Utf8State × JStr :=
  if b < 0x80 then (⟨0, 0⟩, [Char.ofNat b])
  else if b < 0xC0 then (⟨0, 0⟩, [replChar])
  else if b < 0xE0 then (⟨1, b - 0xC0⟩, [])
  else if b < 0xF0 then (⟨2, b - 0xE0⟩, [])
  else if b < 0xF8 then (⟨3, b - 0xF0⟩, [])
  else (⟨0, 0⟩, [replChar])

/-- Consume one byte. -/
def utf8Step (st : Utf8State) (b : Nat) : Utf8State × JStr :=
  if st.need = 0 then utf8Lead b
  else if isContB b then
    (if st.need = 1 then (⟨0, 0⟩, [Char.ofNat (st.acc * 64 + (b - 0x80))])
     else (⟨st.need - 1, st.acc * 64 + (b - 0x80)⟩, []))
  else
    let r := utf8Lead b
    (r.1, replChar :: r.2)

def decodeUtf8Go : Utf8State → List Nat → JStr
  | _, [] => []
  | st, b :: rest =>
    let r := utf8Step st b
    r.2 ++ decodeUtf8Go r.1 rest

def decodeUtf8 (bs : List Nat) : JStr := decodeUtf8Go ⟨0, 0⟩ bs

/-- UTF-8 encoding of one character. -/
def utf8EncodeChar (c : Char) : List Nat :=
  let n := c.toNat
  if n < 0x80 then [n]
  else if n < 0x800 then [0xC0 + n / 64, 0x80 + n % 64]
  else if n < 0x10000 then [0xE0 + n / 4096, 0x80 + n / 64 % 64, 0x80 + n % 64]
  else [0xF0 + n / 262144, 0x80 + n / 4096 % 64, 0x80 + n / 64 % 64, 0x80 + n % 64]

/-- UTF-8 encoding of a string. -/
def utf8Encode (s : JStr) : List Nat := (s.map utf8EncodeChar).flatten

/-- Per-line processing of the stream handler: a non-blank line starting
with the raw prefix `data: ` is sliced at 6 and trimmed; `[DONE]` yields
nothing; otherwise the payload is parsed (`none` models a parse failure,
which is swallowed). -/
def processLine {J : Type} (parse : JStr → Option J) (line : JStr) : Option J :=
  if !(jsTrim line).isEmpty && leadsWith (S "data: ") line then
    let d := jsTrim (line.drop 6)
    if d = S "[DONE]" then none else parse d
  else none

/-- Decoder state: `TextDecoder`'s pending bytes and the pending-text
buffer. -/
structure DecSt where
  pending : List Nat
  buffer : JStr

/-- One `reader.read()` iteration: decode, append to the buffer, split on
newlines, hold back the final fragment, process the complete lines. -/
def stepChunk {J : Type} (parse : JStr → Option J) (st : DecSt) (chunk : List Nat) :
    DecSt × List J :=
  let all := st.pending ++ chunk
  let pl := pendingLen all
  let txt := decodeUtf8 (all.take (all.length - pl))
  let buf := st.buffer ++ txt
  let ls := jsSplitNl buf
  (⟨all.drop (all.length - pl), ls.getLastD []⟩, ls.dropLast.filterMap (processLine parse))

/-- The `done` branch: if the held-back buffer is non-blank, split it and
process every line (no fragment is held back this time). -/
def flushBuf {J : Type} (parse : JStr → Option J) (buf : JStr) : List J :=
  if !(jsTrim buf).isEmpty then (jsSplitNl buf).filterMap (processLine parse) else []

def decodeStreamGo {J : Type} (parse : JStr → Option J) (st : DecSt) :
    List (List Nat) → List J
  | [] => flushBuf parse st.buffer
  | c :: cs =>
    let r := stepChunk parse st c
    r.2 ++ decodeStreamGo parse r.1 cs

/-- The whole async iterator: a sequence of reads followed by the
end-of-source flush. -/
def decodeStream {J : Type} (parse : JStr → Option J) (chunks : List (List Nat)) : List J :=
  decodeStreamGo parse ⟨[], []⟩ chunks

/-- The per-line behaviour C6 describes, formalised from the claim's
words: the line is trimmed first and the prefix test, slice and re-trim
are applied to the trimmed line. -/
def processLineClaimed {J : Type} (parse : JStr → Option J) (line : JStr) : Option J :=
  let t := jsTrim line
  if leadsWith (S "data: ") t then
    let d := jsTrim (t.drop 6)
    if d = S "[DONE]" then none else parse d
  else none

/-! ## Structural facts about the newline split -/

theorem jsSplitNl_ne_nil : ∀ s : JStr, jsSplitNl s ≠ [] := by
  intro s
  cases s with
  | nil => simp [jsSplitNl]
  | cons c rest =>
    rw [jsSplitNl]
    by_cases hc : c = '\n' <;> simp [hc]

theorem headI_mem_of_ne_nil {α : Type} [Inhabited α] : ∀ (l : List α), l ≠ [] → l.headI ∈ l := by
  intro l h
  cases l with
  | nil => exact absurd rfl h
  | cons a t => simp [List.headI]

theorem mem_jsSplitNl_no_nl : ∀ (s : JStr) (l : JStr), l ∈ jsSplitNl s → '\n' ∉ l := by
  intro s
  induction s with
  | nil =>
    intro l hl
    simp [jsSplitNl] at hl
    simp [hl]
  | cons c rest ih =>
    intro l hl
    rw [jsSplitNl] at hl
    by_cases hc : c = '\n'
    · rw [if_pos hc] at hl
      rcases List.mem_cons.mp hl with h1 | h2
      · simp [h1]
      · exact ih l h2
    · rw [if_neg hc] at hl
      rcases List.mem_cons.mp hl with h1 | h2
      · subst h1
        intro hmem
        rcases List.mem_cons.mp hmem with hx | hx
        · exact hc hx.symm
        · have hhead : (jsSplitNl rest).headI ∈ jsSplitNl rest :=
            headI_mem_of_ne_nil _ (jsSplitNl_ne_nil rest)
          exact ih _ hhead hx
      · have : l ∈ jsSplitNl rest := (List.tail_sublist _).mem h2
        exact ih l this

theorem jsSplitNl_eq_single : ∀ l : JStr, '\n' ∉ l → jsSplitNl l = [l] := by
  intro l
  induction l with
  | nil => intro _; rfl
  | cons c rest ih =>
    intro h
    have hc : ¬c = '\n' := fun hx => h (by simp [hx])
    have hr : jsSplitNl rest = [rest] := ih (fun hx => h (by simp [hx]))
    rw [jsSplitNl, if_neg hc, hr]
    rfl

theorem jsSplitNl_concat_nl : ∀ l : JStr, '\n' ∉ l → jsSplitNl (l ++ ['\n']) = [l, []] := by
  intro l
  induction l with
  | nil => intro _; rfl
  | cons c rest ih =>
    intro h
    have hc : ¬c = '\n' := fun hx => h (by simp [hx])
    have hr : jsSplitNl (rest ++ ['\n']) = [rest, []] := ih (fun hx => h (by simp [hx]))
    show jsSplitNl (c :: (rest ++ ['\n'])) = [c :: rest, []]
    rw [jsSplitNl, if_neg hc, hr]
    rfl

theorem getLastD_single {α : Type} (a d : α) : [a].getLastD d = a := rfl

theorem filterMap_option_toList {J α : Type} (f : α → Option J) (a : α) :
    List.filterMap f [a] = (f a).toList := by
  cases hf : f a <;> simp [List.filterMap, hf]

/-- The blank-check on the flush and on a blank line agree: a line whose
trim is empty produces no event. -/
theorem processLine_none_of_blank {J : Type} (parse : JStr → Option J) {l : JStr}
    (h : (jsTrim l).isEmpty = true) : processLine parse l = none := by
  rw [processLine]
  simp [h]

/-- One fully delivered chunk is processed exactly as the per-line
function over the newline split of its decoded text — the buffered
processing plus final flush neither drops, duplicates, nor reorders any
line. -/
theorem decodeStream_single_chunk {J : Type} (parse : JStr → Option J) (bs : List Nat)
    (hp : pendingLen bs = 0) :
    decodeStream parse [bs] = (jsSplitNl (decodeUtf8 bs)).filterMap (processLine parse) := by
  rw [decodeStream, decodeStreamGo]
  have hstep : stepChunk parse ⟨[], []⟩ bs =
      (⟨[], (jsSplitNl (decodeUtf8 bs)).getLastD []⟩,
        (jsSplitNl (decodeUtf8 bs)).dropLast.filterMap (processLine parse)) := by
    rw [stepChunk]
    simp [hp, List.take_of_length_le, List.drop_eq_nil_of_le]
  rw [hstep]
  simp only [decodeStreamGo]
  set ls := jsSplitNl (decodeUtf8 bs) with hls
  have hlsne : ls ≠ [] := jsSplitNl_ne_nil _
  have hlast : ls.getLast? = some (ls.getLastD []) := by
    cases hx : ls.getLast? with
    | none => exact absurd (List.getLast?_eq_none_iff.mp hx) hlsne
    | some a => rw [List.getLastD_eq_getLast?, hx]; rfl
  have hsplitls : ls.dropLast ++ [ls.getLastD []] = ls :=
    List.dropLast_append_getLast? _ hlast
  have hlastmem : ls.getLastD [] ∈ ls := by
    rw [← hsplitls]
    exact List.mem_append_right _ (by simp)
  have hnl : '\n' ∉ ls.getLastD [] := mem_jsSplitNl_no_nl _ _ hlastmem
  have hflush : flushBuf parse (ls.getLastD []) =
      (processLine parse (ls.getLastD [])).toList := by
    rw [flushBuf]
    by_cases hb : (jsTrim (ls.getLastD [])).isEmpty = true
    · rw [processLine_none_of_blank parse hb]
      simp only [flushBuf, hb, Bool.not_true, Bool.false_eq_true, if_false, Option.toList_none]
    · have hb' : (!(jsTrim (ls.getLastD [])).isEmpty) = true := by
        cases hx : (jsTrim (ls.getLastD [])).isEmpty
        · rfl
        · exact absurd hx hb
      rw [if_pos hb', jsSplitNl_eq_single _ hnl, filterMap_option_toList]
  rw [hflush]
  conv_rhs => rw [← hsplitls]
  rw [List.filterMap_append, filterMap_option_toList]

/-! ## C6 — per-line decoding -/

/-- Counterexample to C6 as stated: the code applies the `data: ` prefix
test and the 6-character slice to the raw line (`line.trim()` is only a
blank check), so a line with leading whitespace before `data: ` is
skipped entirely, while the claim's trim-first reading parses and yields
its payload; the parsable data line ` data: 1` is dropped. -/
theorem c6_counterexample :
    processLineClaimed (fun s => if s = S "1" then some 1 else none) (S " data: 1") = some 1 ∧
    processLine (fun s => if s = S "1" then some 1 else none) (S " data: 1") = none ∧
    decodeStream (fun s => if s = S "1" then some 1 else none)
      [utf8Encode (S " data: 1" ++ ['\n'])] = [] := by
  refine ⟨by decide, by decide, by decide⟩

/-- C6 (amended): for every complete line, the decoder trims the line only
to skip blank lines, applies the prefix test `startsWith("data: ")` and
the `slice(6)` to the raw (untrimmed) line, trims the sliced payload,
yields nothing for `[DONE]`, yields the parsed value when parsing
succeeds and nothing when it fails; lines are processed in order with no
parsable `data: `-prefixed line dropped: a fully delivered chunk produces
exactly the in-order filterMap of the per-line function over its newline
split. -/
theorem c6_line_processing_amended :
    ∀ (J : Type) (parse : JStr → Option J),
      (∀ bs : List Nat, pendingLen bs = 0 →
        decodeStream parse [bs] =
          (jsSplitNl (decodeUtf8 bs)).filterMap (processLine parse)) ∧
      (∀ line : JStr,
        ((jsTrim line).isEmpty = false → leadsWith (S "data: ") line = true →
          (jsTrim (line.drop 6) = S "[DONE]" → processLine parse line = none) ∧
          (jsTrim (line.drop 6) ≠ S "[DONE]" →
            processLine parse line = parse (jsTrim (line.drop 6)))) ∧
        (leadsWith (S "data: ") line = false → processLine parse line = none) ∧
        ((jsTrim line).isEmpty = true → processLine parse line = none)) := by
  intro J parse
  constructor
  · exact fun bs hp => decodeStream_single_chunk parse bs hp
  · intro line
    refine ⟨?_, ?_, ?_⟩
    · intro hblank hlead
      constructor
      · intro hdone
        rw [processLine]
        simp [hblank, hlead, hdone]
      · intro hdone
        rw [processLine]
        simp [hblank, hlead, hdone]
    · intro hlead
      rw [processLine]
      simp [hlead]
    · exact fun hb => processLine_none_of_blank parse hb

/-- Witness for the amended C6: a concrete `data: ` line followed by a
`[DONE]` sentinel yields exactly the one parsed payload. -/
theorem c6_line_processing_amended_witness :
    decodeStream (fun s => if s = S "1" then some 1 else none)
        [utf8Encode (S "data: 1" ++ '\n' :: S "data: [DONE]" ++ ['\n'])] = [1] := by
  have h := (c6_line_processing_amended Nat
    (fun s => if s = S "1" then some 1 else none)).1
    (utf8Encode (S "data: 1" ++ '\n' :: S "data: [DONE]" ++ ['\n'])) (by decide)
  rw [h]
  decide

/-! ## C7 — split-at-any-byte robustness, concrete `data: {"a":1}` line -/

/-- The concrete event line of C7 (13 ASCII characters). -/
def lineStr : JStr := S "data: \x7b\"a\":1\x7d"

/-- Its JSON payload. -/
def payloadStr : JStr := S "\x7b\"a\":1\x7d"

/-- The bytes of the line without a trailing newline. -/
def lineBytes : List Nat := utf8Encode lineStr

/-- The bytes of the line with the trailing newline. -/
def lineBytesNl : List Nat := utf8Encode (lineStr ++ ['\n'])

theorem decodeUtf8_map_ascii : ∀ s : JStr, (∀ c ∈ s, c.toNat < 0x80) →
    decodeUtf8 (s.map Char.toNat) = s := by
  intro s
  induction s with
  | nil => intro _; rfl
  | cons c rest ih =>
    intro h
    have hc : c.toNat < 0x80 := h c (by simp)
    show decodeUtf8Go ⟨0, 0⟩ (c.toNat :: rest.map Char.toNat) = c :: rest
    rw [decodeUtf8Go]
    have hstep : utf8Step ⟨0, 0⟩ c.toNat = (⟨0, 0⟩, [Char.ofNat c.toNat]) := by
      rw [utf8Step, if_pos rfl, utf8Lead, if_pos hc]
    rw [hstep, Char.ofNat_toNat]
    exact congrArg (c :: ·) (ih (fun x hx => h x (by simp [hx])))

theorem pendingLen_ascii : ∀ bs : List Nat, (∀ b ∈ bs, b < 0x80) → pendingLen bs = 0 := by
  intro bs h
  rw [pendingLen]
  cases hr : bs.reverse with
  | nil => rfl
  | cons b1 r1 =>
    have hb1 : b1 ∈ bs := by
      rw [← List.mem_reverse, hr]
      simp
    have hlt : b1 < 0x80 := h b1 hb1
    have h1 : utf8NeedLen b1 = 1 := by rw [utf8NeedLen, if_pos hlt]
    have h2 : isContB b1 = false := by
      rw [isContB]
      have hx : ¬(0x80 ≤ b1) := by omega
      simp [hx]
    simp [h1, h2]

/-- One read of pure-ASCII bytes with no pending decoder state: the
decoded text is appended and split, the final fragment held back. -/
theorem stepChunk_ascii {J : Type} (parse : JStr → Option J) (buffer : JStr) (t : JStr)
    (ht : ∀ c ∈ t, c.toNat < 0x80) :
    stepChunk parse ⟨[], buffer⟩ (t.map Char.toNat) =
      (⟨[], (jsSplitNl (buffer ++ t)).getLastD []⟩,
        (jsSplitNl (buffer ++ t)).dropLast.filterMap (processLine parse)) := by
  have hasc : ∀ b ∈ t.map Char.toNat, b < 0x80 := by
    intro b hb
    rw [List.mem_map] at hb
    obtain ⟨c, hc, rfl⟩ := hb
    exact ht c hc
  have hp : pendingLen (t.map Char.toNat) = 0 := pendingLen_ascii _ hasc
  rw [stepChunk]
  simp only [List.nil_append, hp, Nat.sub_zero, List.take_length, List.drop_length,
    decodeUtf8_map_ascii t ht]

theorem lineStr_no_nl : '\n' ∉ lineStr := by decide

theorem c7_mid {J : Type} (parse : JStr → Option J) (k : Nat) (hk : k ≤ 13) :
    decodeStream parse [lineBytesNl.take k, lineBytesNl.drop k] =
      (parse payloadStr).toList := by
  have hfa : ∀ c ∈ lineStr ++ ['\n'], c.toNat < 0x80 := by decide
  have henc : lineBytesNl = (lineStr ++ ['\n']).map Char.toNat := by decide
  have hlen : lineStr.length = 13 := by decide
  have htk : lineBytesNl.take k = (lineStr.take k).map Char.toNat := by
    rw [henc, ← List.map_take]
    congr 1
    exact List.take_append_of_le_length (by omega)
  have hdk : lineBytesNl.drop k = ((lineStr ++ ['\n']).drop k).map Char.toNat := by
    rw [henc, ← List.map_drop]
  have hta : ∀ c ∈ lineStr.take k, c.toNat < 0x80 := by
    intro c hc
    exact hfa c (List.mem_append_left _ (List.take_subset _ _ hc))
  have hda : ∀ c ∈ (lineStr ++ ['\n']).drop k, c.toNat < 0x80 :=
    fun c hc => hfa c (List.drop_subset _ _ hc)
  have hnl1 : '\n' ∉ lineStr.take k := fun hx => lineStr_no_nl (List.take_subset _ _ hx)
  have hbuf : lineStr.take k ++ (lineStr ++ ['\n']).drop k = lineStr ++ ['\n'] := by
    conv_lhs =>
      rw [show lineStr.take k = (lineStr ++ ['\n']).take k from
        (List.take_append_of_le_length (by omega)).symm]
    exact List.take_append_drop k _
  rw [decodeStream, htk, hdk]
  simp only [decodeStreamGo, stepChunk_ascii parse [] (lineStr.take k) hta,
    stepChunk_ascii parse _ _ hda]
  rw [List.nil_append, jsSplitNl_eq_single _ hnl1]
  simp only [getLastD_single, List.dropLast_single, List.filterMap_nil,
    List.nil_append]
  rw [hbuf, jsSplitNl_concat_nl lineStr lineStr_no_nl]
  simp only [List.getLastD, List.dropLast]
  rw [show ([lineStr] : List JStr).filterMap (processLine parse) =
      (processLine parse lineStr).toList from filterMap_option_toList _ _]
  rw [show processLine parse lineStr = parse payloadStr from rfl]
  simp [flushBuf, jsTrim]

theorem c7_high {J : Type} (parse : JStr → Option J) (k : Nat) (hk : 14 ≤ k) :
    decodeStream parse [lineBytesNl.take k, lineBytesNl.drop k] =
      (parse payloadStr).toList := by
  have hlen : lineBytesNl.length = 14 := by decide
  have htk : lineBytesNl.take k = lineBytesNl := List.take_of_length_le (by omega)
  have hdk : lineBytesNl.drop k = [] := List.drop_eq_nil_of_le (by omega)
  have hfa : ∀ c ∈ lineStr ++ ['\n'], c.toNat < 0x80 := by decide
  have henc : lineBytesNl = (lineStr ++ ['\n']).map Char.toNat := by decide
  rw [decodeStream, htk, hdk, henc]
  simp only [decodeStreamGo, stepChunk_ascii parse [] (lineStr ++ ['\n']) hfa]
  rw [List.nil_append, jsSplitNl_concat_nl lineStr lineStr_no_nl]
  simp only [List.getLastD, List.dropLast]
  rw [show ([lineStr] : List JStr).filterMap (processLine parse) =
      (processLine parse lineStr).toList from filterMap_option_toList _ _]
  rw [show processLine parse lineStr = parse payloadStr from rfl]
  have hempty : stepChunk (J := J) parse ⟨[], []⟩ [] =
      (⟨[], []⟩, []) := rfl
  simp [decodeStreamGo, hempty, flushBuf, jsTrim]

/-- C7: the concrete line `data: (obj){"a":1}(endobj)` followed by a
newline, delivered in two reads split at an arbitrary byte offset, yields
exactly the one event `JSON.parse` produces for the payload, with no
duplicate or corrupted events; and the same line with no trailing newline
is still processed exactly once when the byte source ends. -/
theorem c7_split_invariance :
    ∀ (J : Type) (parse : JStr → Option J) (v : J), parse payloadStr = some v →
      (∀ k : Nat, decodeStream parse [lineBytesNl.take k, lineBytesNl.drop k] = [v]) ∧
      decodeStream parse [lineBytes] = [v] := by
  intro J parse v h
  constructor
  · intro k
    rcases le_or_lt k 13 with hk | hk
    · rw [c7_mid parse k hk, h]
      rfl
    · rw [c7_high parse k (by omega), h]
      rfl
  · have hla : ∀ c ∈ lineStr, c.toNat < 0x80 := by decide
    have henc : lineBytes = lineStr.map Char.toNat := by decide
    rw [decodeStream, henc]
    simp only [decodeStreamGo, stepChunk_ascii parse [] lineStr hla]
    rw [List.nil_append, jsSplitNl_eq_single _ lineStr_no_nl]
    simp only [getLastD_single, List.dropLast_single, List.filterMap_nil,
      List.nil_append]
    have hflush : flushBuf parse lineStr =
        (jsSplitNl lineStr).filterMap (processLine parse) := by
      rw [flushBuf, if_pos (by decide)]
    rw [hflush, jsSplitNl_eq_single _ lineStr_no_nl]
    rw [show ([lineStr] : List JStr).filterMap (processLine parse) =
        (processLine parse lineStr).toList from filterMap_option_toList _ _]
    rw [show processLine parse lineStr = parse payloadStr from rfl, h]
    rfl

/-- Witness for C7 with a concrete parse function, split at byte 3. -/
theorem c7_split_invariance_witness :
    decodeStream (fun s => if s = payloadStr then some 1 else none)
        [lineBytesNl.take 3, lineBytesNl.drop 3] = [1] ∧
    decodeStream (fun s => if s = payloadStr then some 1 else none) [lineBytes] = [1] := by
  have h := c7_split_invariance Nat (fun s => if s = payloadStr then some 1 else none) 1
    (by decide)
  exact ⟨h.1 3, h.2⟩

/-! ## Provider registry and pooled-client cache

`run()` builds `Providers` (a `Map` from name to provider config, i.e. an
insertion-ordered associative table) and `getProviderInstance` resolves a
name through it — throwing `Provider … not found` when absent — then
reuses a pooled client from `providerCache`, KEYED BY `provider.name`
(not by the lookup name), constructing and inserting a new client on a
miss.

Modelled from the spec: the `lru-cache` package
(`new LRUCache({max: 10, ttl: 2*60*60*1000})`) is an external dependency
whose source is not in the repository; it is modelled per the spec's
description and the package's documented semantics — a bounded
associative cache of capacity 10 whose entries expire 2 hours after
insertion; `get` returns a live entry and refreshes its recency, treats
an expired entry as missing (deleting it), and `set` inserts at the
most-recently-used position, evicting the least-recently-used entry when
over capacity.  Recency is the list order (head = most recent); client
handles are numbered by a construction counter, so "the identical pooled
client" means the same number and "no new construction" means the counter
does not advance. -/

/-- A provider config entry. -/
structure ModelProvider where
  name : JStr
  api_base_url : JStr
  api_key : JStr
  models : List JStr
deriving DecidableEq

/-- One cache entry: key, pooled-client handle, insertion time (ms). -/
structure CEntry where
  key : JStr
  client : Nat
  inserted : Nat
deriving DecidableEq

/-- `ttl: 2 * 60 * 60 * 1000`. -/
def cacheTTL : Nat := 2 * 60 * 60 * 1000

/-- `max: 10`. -/
def cacheMax : Nat := 10

def cacheFind (st : List CEntry) (k : JStr) : Option CEntry :=
  st.find? (fun e => e.key == k)

/-- `providerCache.get(k)` at time `now`, returning the hit (if any) and
the updated recency list. -/
def cacheGet (st : List CEntry) (now : Nat) (k : JStr) : Option Nat × List CEntry :=
  match cacheFind st k with
  | none => (none, st)
  | some e =>
    if now < e.inserted + cacheTTL then
      (some e.client, e :: st.filter (fun x => !(x.key == k)))
    else
      (none, st.filter (fun x => !(x.key == k)))

/-- `providerCache.set(k, v)` at time `now`. -/
def cacheSet (st : List CEntry) (now : Nat) (k : JStr) (v : Nat) : List CEntry :=
  ((⟨k, v, now⟩ : CEntry) :: st.filter (fun x => !(x.key == k))).take cacheMax

/-- `Map.get`. -/
def mapGet (reg : List (JStr × ModelProvider)) (k : JStr) : Option ModelProvider :=
  (reg.find? (fun p => p.1 == k)).map Prod.snd

/-- `Map.set`: overwrite in place, else append (insertion order). -/
def mapSet (reg : List (JStr × ModelProvider)) (k : JStr) (v : ModelProvider) :
    List (JStr × ModelProvider) :=
  if (reg.find? (fun p => p.1 == k)).isSome then
    reg.map (fun p => if p.1 == k then (k, v) else p)
  else reg ++ [(k, v)]

/-- Pool state: the cache plus the construction counter. -/
structure PoolSt where
  cache : List CEntry
  nextId : Nat
deriving DecidableEq

/-- `getProviderInstance(providerName)`: throw when the name is not
registered; otherwise return the live cached client for
`provider.name`, or construct, insert and return a new one. -/
def getProviderInstance (reg : List (JStr × ModelProvider)) (st : PoolSt) (now : Nat)
    (name : JStr) : Except Unit (Nat × PoolSt) :=
  match mapGet reg name with
  | none => .error ()
  | some provider =>
    match cacheGet st.cache now provider.name with
    | (some c, cache2) => .ok (c, ⟨cache2, st.nextId⟩)
    | (none, cache2) =>
      .ok (st.nextId, ⟨cacheSet cache2 now provider.name st.nextId, st.nextId + 1⟩)

/-- `Providers.set("default", Providers.values().next().value)` — the
else-branch aliasing: `default` maps to the first registered provider
object. -/
def aliasDefault (reg : List (JStr × ModelProvider)) : List (JStr × ModelProvider) :=
  match reg.head? with
  | some (_, p) => mapSet reg (S "default") p
  | none => reg

/-- `cacheSet` explicitly: new entry at the front, any old entry for the
key removed, capped at 10. -/
theorem cacheSet_eq (st : List CEntry) (now : Nat) (k : JStr) (v : Nat) :
    cacheSet st now k v =
      (⟨k, v, now⟩ : CEntry) :: (st.filter (fun x => !(x.key == k))).take 9 := rfl

theorem gpi_none (reg : List (JStr × ModelProvider)) (st : PoolSt) (now : Nat) (name : JStr)
    (h : mapGet reg name = none) :
    getProviderInstance reg st now name = .error () := by
  simp only [getProviderInstance, h]

theorem gpi_hit (reg : List (JStr × ModelProvider)) (st : PoolSt) (now : Nat) (name : JStr)
    (p : ModelProvider) (c : Nat) (cache2 : List CEntry)
    (hp : mapGet reg name = some p)
    (hg : cacheGet st.cache now p.name = (some c, cache2)) :
    getProviderInstance reg st now name = .ok (c, ⟨cache2, st.nextId⟩) := by
  simp only [getProviderInstance, hp, hg]

theorem gpi_miss (reg : List (JStr × ModelProvider)) (st : PoolSt) (now : Nat) (name : JStr)
    (p : ModelProvider) (cache2 : List CEntry)
    (hp : mapGet reg name = some p)
    (hg : cacheGet st.cache now p.name = (none, cache2)) :
    getProviderInstance reg st now name =
      .ok (st.nextId, ⟨cacheSet cache2 now p.name st.nextId, st.nextId + 1⟩) := by
  simp only [getProviderInstance, hp, hg]

/-- A lookup fails exactly when the registry misses the name. -/
theorem gpi_error_iff (reg : List (JStr × ModelProvider)) (st : PoolSt) (now : Nat)
    (name : JStr) :
    getProviderInstance reg st now name = .error () ↔ mapGet reg name = none := by
  constructor
  · intro he
    cases hp : mapGet reg name with
    | none => rfl
    | some p =>
      rcases hg : cacheGet st.cache now p.name with ⟨o, cache2⟩
      cases o with
      | some c0 =>
        rw [gpi_hit reg st now name p c0 cache2 hp hg] at he
        exact absurd he (by simp)
      | none =>
        rw [gpi_miss reg st now name p cache2 hp hg] at he
        exact absurd he (by simp)
  · exact gpi_none reg st now name

/-- After a cache hit the returned recency list fronts an entry for the
key holding the returned client. -/
theorem cacheGet_hit_find (stc : List CEntry) (now : Nat) (k : JStr) (c : Nat)
    (cache2 : List CEntry) (hg : cacheGet stc now k = (some c, cache2)) :
    ∃ e : CEntry, e.key = k ∧ e.client = c ∧ cacheFind cache2 k = some e := by
  cases hf : cacheFind stc k with
  | none =>
    have hcg : cacheGet stc now k = (none, stc) := by simp only [cacheGet, hf]
    rw [hcg] at hg
    injection hg with h1 h2
    exact absurd h1 (by simp)
  | some e =>
    have hek : e.key = k := by
      rw [cacheFind] at hf
      have := List.find?_some hf
      exact eq_of_beq (by simpa using this)
    by_cases hl : now < e.inserted + cacheTTL
    · have hcg : cacheGet stc now k =
          (some e.client, e :: stc.filter (fun x => !(x.key == k))) := by
        simp only [cacheGet, hf]
        rw [if_pos hl]
      rw [hcg] at hg
      injection hg with h1 h2
      refine ⟨e, hek, Option.some.inj h1, ?_⟩
      rw [← h2, cacheFind, List.find?_cons_of_pos _ (by simp [hek])]
    · have hcg : cacheGet stc now k = (none, stc.filter (fun x => !(x.key == k))) := by
        simp only [cacheGet, hf]
        rw [if_neg hl]
      rw [hcg] at hg
      injection hg with h1 h2
      exact absurd h1 (by simp)

/-- Whatever a successful lookup returns, the post-state cache maps the
provider name to the returned client handle. -/
theorem gpi_find_client (reg : List (JStr × ModelProvider)) (st : PoolSt) (now : Nat)
    (name : JStr) (p : ModelProvider) (c : Nat) (st2 : PoolSt)
    (hp : mapGet reg name = some p)
    (hok : getProviderInstance reg st now name = Except.ok (c, st2)) :
    ∃ t, cacheFind st2.cache p.name = some ⟨p.name, c, t⟩ := by
  rcases hg : cacheGet st.cache now p.name with ⟨o, cache2⟩
  cases o with
  | some c0 =>
    rw [gpi_hit reg st now name p c0 cache2 hp hg] at hok
    injection hok with hok
    injection hok with hc hst
    obtain ⟨e, hek, hec, hfind⟩ := cacheGet_hit_find st.cache now p.name c0 cache2 hg
    refine ⟨e.inserted, ?_⟩
    rw [← hst]
    show cacheFind cache2 p.name = some ⟨p.name, c, e.inserted⟩
    rw [hfind]
    cases e
    simp_all
  | none =>
    rw [gpi_miss reg st now name p cache2 hp hg] at hok
    injection hok with hok
    injection hok with hc hst
    refine ⟨now, ?_⟩
    rw [← hst]
    show cacheFind (cacheSet cache2 now p.name st.nextId) p.name = some ⟨p.name, c, now⟩
    rw [cacheSet_eq, cacheFind, List.find?_cons_of_pos _ (by simp), hc]

/-- A live cached entry is returned as-is, moved to the front, with the
construction counter untouched. -/
theorem gpi_live_hit (reg : List (JStr × ModelProvider)) (st : PoolSt) (now2 : Nat)
    (name : JStr) (p : ModelProvider) (e : CEntry)
    (hp : mapGet reg name = some p)
    (hf : cacheFind st.cache p.name = some e)
    (hlive : now2 < e.inserted + cacheTTL) :
    getProviderInstance reg st now2 name =
      .ok (e.client, ⟨e :: st.cache.filter (fun x => !(x.key == p.name)), st.nextId⟩) := by
  apply gpi_hit reg st now2 name p e.client _ hp
  simp only [cacheGet, hf]
  rw [if_pos hlive]

/-- While the entry written by a successful lookup is live, looking the
same name up again yields the identical client handle and does not
advance the construction counter. -/
theorem gpi_second_lookup (reg : List (JStr × ModelProvider)) (st : PoolSt)
    (now now2 : Nat) (name : JStr) (p : ModelProvider) (c : Nat) (st2 : PoolSt)
    (hp : mapGet reg name = some p)
    (hok : getProviderInstance reg st now name = Except.ok (c, st2))
    (hlive : ∀ e, cacheFind st2.cache p.name = some e → now2 < e.inserted + cacheTTL) :
    ∃ cache3, getProviderInstance reg st2 now2 name = Except.ok (c, ⟨cache3, st2.nextId⟩) := by
  obtain ⟨t, hf⟩ := gpi_find_client reg st now name p c st2 hp hok
  exact ⟨_, gpi_live_hit reg st2 now2 name p ⟨p.name, c, t⟩ hp hf (hlive _ hf)⟩

/-- `cacheGet` never grows the cache. -/
theorem cacheGet_length (stc : List CEntry) (now : Nat) (k : JStr) (o : Option Nat)
    (cache2 : List CEntry) (hg : cacheGet stc now k = (o, cache2)) :
    cache2.length ≤ stc.length := by
  cases hf : cacheFind stc k with
  | none =>
    have hcg : cacheGet stc now k = (none, stc) := by simp only [cacheGet, hf]
    rw [hcg] at hg
    injection hg with h1 h2
    rw [← h2]
  | some e =>
    have he : e ∈ stc ∧ (e.key == k) = true := by
      rw [cacheFind] at hf
      exact ⟨List.mem_of_find?_eq_some hf, by simpa using List.find?_some hf⟩
    have hlt : (stc.filter (fun x => !(x.key == k))).length < stc.length := by
      rw [List.length_filter_lt_length_iff_exists]
      exact ⟨e, he.1, by simp [he.2]⟩
    by_cases hl : now < e.inserted + cacheTTL
    · have hcg : cacheGet stc now k =
          (some e.client, e :: stc.filter (fun x => !(x.key == k))) := by
        simp only [cacheGet, hf]
        rw [if_pos hl]
      rw [hcg] at hg
      injection hg with h1 h2
      rw [← h2]
      simp only [List.length_cons]
      omega
    · have hcg : cacheGet stc now k = (none, stc.filter (fun x => !(x.key == k))) := by
        simp only [cacheGet, hf]
        rw [if_neg hl]
      rw [hcg] at hg
      injection hg with h1 h2
      rw [← h2]
      omega

/-- A successful lookup keeps the cache within its capacity of 10. -/
theorem gpi_capacity (reg : List (JStr × ModelProvider)) (st : PoolSt) (now : Nat)
    (name : JStr) (c : Nat) (st2 : PoolSt)
    (hok : getProviderInstance reg st now name = Except.ok (c, st2))
    (hle : st.cache.length ≤ cacheMax) : st2.cache.length ≤ cacheMax := by
  cases hp : mapGet reg name with
  | none =>
    rw [gpi_none reg st now name hp] at hok
    exact absurd hok (by simp)
  | some p =>
    rcases hg : cacheGet st.cache now p.name with ⟨o, cache2⟩
    have hc2 := cacheGet_length st.cache now p.name o cache2 hg
    cases o with
    | some c0 =>
      rw [gpi_hit reg st now name p c0 cache2 hp hg] at hok
      injection hok with hok
      injection hok with h1 h2
      rw [← h2]
      exact le_trans hc2 hle
    | none =>
      rw [gpi_miss reg st now name p cache2 hp hg] at hok
      injection hok with hok
      injection hok with h1 h2
      rw [← h2]
      show (cacheSet cache2 now p.name st.nextId).length ≤ cacheMax
      rw [cacheSet_eq]
      simp only [List.length_cons, List.length_take, cacheMax]
      omega

/-- Provider names `p1`, `p2`, … for the concrete eviction scenarios. -/
def c9name (i : Nat) : JStr := S "p" ++ (Nat.repr i).data

def c9prov (i : Nat) : ModelProvider := ⟨c9name i, S "u", S "k", []⟩

/-- A registry of eleven distinct providers `p1` … `p11`. -/
def c9reg : List (JStr × ModelProvider) :=
  (List.range 11).map (fun i => (c9name (i + 1), c9prov (i + 1)))

/-- One lookup of provider `p_i` at time `i`, threading the pool state. -/
def c9step (st : PoolSt) (i : Nat) : PoolSt :=
  match getProviderInstance c9reg st i (c9name i) with
  | .ok (_, st2) => st2
  | .error _ => st

/-- Lookups of `p1` … `p11` in order. -/
def c9A : PoolSt := ((List.range 11).map (fun i => i + 1)).foldl c9step ⟨[], 0⟩

/-- Lookups of `p1` … `p10`, then `p1` again (a refreshing hit), then
`p11`. -/
def c9B : PoolSt := (((List.range 10).map (fun i => i + 1)) ++ [1, 11]).foldl c9step ⟨[], 0⟩

/-- C9: `getProviderInstance` fails exactly when the requested name is
absent from the registry; a second lookup of the same name while its
cached entry is live (within the 2-hour TTL from insertion) returns the
identical client handle without constructing a new one (the construction
counter does not advance); a lookup never pushes the cache past 10
entries; and in the concrete scenarios an 11th distinct provider evicts
the least-recently-used entry — `p1` after sequential lookups of
`p1` … `p10`, but `p2` (not the refreshed `p1`) when `p1` was looked up
again just before `p11`. -/
theorem c9_provider_cache :
    (∀ (reg : List (JStr × ModelProvider)) (st : PoolSt) (now : Nat) (name : JStr),
      getProviderInstance reg st now name = Except.error () ↔ mapGet reg name = none) ∧
    (∀ (reg : List (JStr × ModelProvider)) (st : PoolSt) (now now2 : Nat) (name : JStr)
        (p : ModelProvider) (c : Nat) (st2 : PoolSt),
      mapGet reg name = some p →
      getProviderInstance reg st now name = Except.ok (c, st2) →
      (∀ e, cacheFind st2.cache p.name = some e → now2 < e.inserted + cacheTTL) →
      ∃ cache3, getProviderInstance reg st2 now2 name = Except.ok (c, ⟨cache3, st2.nextId⟩)) ∧
    (∀ (reg : List (JStr × ModelProvider)) (st : PoolSt) (now : Nat) (name : JStr)
        (c : Nat) (st2 : PoolSt),
      getProviderInstance reg st now name = Except.ok (c, st2) →
      st.cache.length ≤ cacheMax → st2.cache.length ≤ cacheMax) ∧
    (cacheFind c9A.cache (c9name 1) = none ∧
      ((List.range 10).all (fun j => (cacheFind c9A.cache (c9name (j + 2))).isSome)) = true ∧
      c9A.cache.length = 10 ∧ c9A.nextId = 11) ∧
    (cacheFind c9B.cache (c9name 2) = none ∧
      (cacheFind c9B.cache (c9name 1)).isSome = true ∧
      c9B.nextId = 11 ∧ c9B.cache.length = 10) :=
  ⟨gpi_error_iff,
   fun reg st now now2 name p c st2 => gpi_second_lookup reg st now now2 name p c st2,
   fun reg st now name c st2 => gpi_capacity reg st now name c st2,
   by decide, by decide⟩

/-- Witness for `c9_provider_cache`: a cold lookup of `p1` constructs
client `0`; a second lookup one millisecond later returns the same
client `0` and the construction counter stays at `1`. -/
theorem c9_provider_cache_witness :
    ∃ cache3, getProviderInstance c9reg ⟨[⟨c9name 1, 0, 0⟩], 1⟩ 1 (c9name 1) =
      Except.ok (0, ⟨cache3, 1⟩) := by
  refine c9_provider_cache.2.1 c9reg ⟨[], 0⟩ 0 1 (c9name 1) (c9prov 1) 0
    ⟨[⟨c9name 1, 0, 0⟩], 1⟩ (by decide) rfl ?_
  intro e he
  have he2 : some ((⟨c9name 1, 0, 0⟩ : CEntry)) = some e := he
  cases he2
  decide

/-- The head entry of the registry wins the lookup of its key. -/
theorem mapGet_head (reg : List (JStr × ModelProvider)) (n : JStr) (p : ModelProvider)
    (h : reg.head? = some (n, p)) : mapGet reg n = some p := by
  cases reg with
  | nil => exact absurd h (by simp)
  | cons e t =>
    have he : e = (n, p) := by simpa using h
    subst he
    rw [mapGet, List.find?_cons_of_pos _ (by simp)]
    rfl

/-- In-place replacement at a key rewrites exactly the lookup of that
key. -/
theorem mapReplace_get (reg : List (JStr × ModelProvider)) (k : JStr) (v : ModelProvider) :
    mapGet (reg.map (fun q => if q.1 == k then (k, v) else q)) k =
      (mapGet reg k).map (fun _ => v) := by
  induction reg with
  | nil => rfl
  | cons e t ih =>
    simp only [List.map_cons]
    by_cases hk : (e.1 == k) = true
    · rw [if_pos hk]
      simp only [mapGet]
      rw [List.find?_cons_of_pos _ (by simp), List.find?_cons_of_pos _ (by exact hk)]
      rfl
    · rw [if_neg hk]
      simp only [mapGet] at ih ⊢
      rw [List.find?_cons_of_neg _ (by exact hk), List.find?_cons_of_neg _ (by exact hk)]
      exact ih

theorem find?_append_none {α : Type} (p : α → Bool) (l1 l2 : List α)
    (h : l1.find? p = none) : (l1 ++ l2).find? p = l2.find? p := by
  induction l1 with
  | nil => rfl
  | cons a t ih =>
    by_cases hpa : p a = true
    · rw [List.find?_cons_of_pos _ hpa] at h
      exact absurd h (by simp)
    · rw [List.find?_cons_of_neg _ hpa] at h
      rw [List.cons_append, List.find?_cons_of_neg _ hpa]
      exact ih h

/-- `Map.set` makes the key resolve to the new value. -/
theorem mapGet_mapSet_self (reg : List (JStr × ModelProvider)) (k : JStr)
    (v : ModelProvider) : mapGet (mapSet reg k v) k = some v := by
  rw [mapSet]
  split
  next hs =>
    rw [mapReplace_get]
    obtain ⟨e, he⟩ := Option.isSome_iff_exists.mp hs
    rw [mapGet, he]
    rfl
  next hs =>
    have hn : reg.find? (fun q => q.1 == k) = none :=
      Option.not_isSome_iff_eq_none.mp hs
    rw [mapGet, find?_append_none _ _ _ hn, List.find?_cons_of_pos _ (by simp)]
    rfl

/-- Aliasing `default` keeps the head registry entry in place when the
head provider is not itself called `default`. -/
theorem aliasDefault_head (reg : List (JStr × ModelProvider)) (p : ModelProvider)
    (h : reg.head? = some (p.name, p)) (hne : (p.name == S "default") = false) :
    (aliasDefault reg).head? = some (p.name, p) := by
  cases reg with
  | nil => exact absurd h (by simp)
  | cons e t =>
    have he : e = (p.name, p) := by simpa using h
    subst he
    rw [aliasDefault]
    show (mapSet ((p.name, p) :: t) (S "default") p).head? = some (p.name, p)
    rw [mapSet]
    split
    · simp only [List.map_cons]
      rw [if_neg (by simp [hne])]
      rfl
    · rfl

/-- After aliasing, `default` resolves to the first registered provider
object. -/
theorem mapGet_aliasDefault_default (reg : List (JStr × ModelProvider)) (n : JStr)
    (p : ModelProvider) (h : reg.head? = some (n, p)) :
    mapGet (aliasDefault reg) (S "default") = some p := by
  cases reg with
  | nil => exact absurd h (by simp)
  | cons e t =>
    have he : e = (n, p) := by simpa using h
    subst he
    rw [aliasDefault]
    show mapGet (mapSet ((n, p) :: t) (S "default") p) (S "default") = some p
    exact mapGet_mapSet_self _ _ _

/-- C10: the pooled-client cache is keyed by `provider.name`, not by
the lookup name: with `default` aliased to the first registered provider
`p`, a cold lookup of `"default"` constructs client `nid` and stores it
under the single key `p.name`; a later lookup of `p.name` itself (while
the entry is live) hits that same entry, returning the identical client
handle `nid` with the construction counter still at `nid + 1` and the
cache still holding exactly one entry. -/
theorem c10_cache_keyed_by_provider_name :
    ∀ (reg : List (JStr × ModelProvider)) (p : ModelProvider) (nid now now2 : Nat),
      reg.head? = some (p.name, p) →
      p.name ≠ S "default" →
      now2 < now + cacheTTL →
      getProviderInstance (aliasDefault reg) ⟨[], nid⟩ now (S "default") =
        Except.ok (nid, ⟨[⟨p.name, nid, now⟩], nid + 1⟩) ∧
      ∃ cache3,
        getProviderInstance (aliasDefault reg) ⟨[⟨p.name, nid, now⟩], nid + 1⟩ now2 p.name =
          Except.ok (nid, ⟨cache3, nid + 1⟩) ∧ cache3.length = 1 := by
  intro reg p nid now now2 hhead hne hlt
  have hne' : (p.name == S "default") = false := beq_eq_false_iff_ne.mpr hne
  have hdef : mapGet (aliasDefault reg) (S "default") = some p :=
    mapGet_aliasDefault_default reg p.name p hhead
  have hown : mapGet (aliasDefault reg) p.name = some p :=
    mapGet_head _ _ _ (aliasDefault_head reg p hhead hne')
  constructor
  · exact gpi_miss (aliasDefault reg) ⟨[], nid⟩ now (S "default") p [] hdef rfl
  · have hf : cacheFind [(⟨p.name, nid, now⟩ : CEntry)] p.name =
        some ⟨p.name, nid, now⟩ := by
      rw [cacheFind, List.find?_cons_of_pos _ (by simp)]
    have h2 := gpi_live_hit (aliasDefault reg) ⟨[⟨p.name, nid, now⟩], nid + 1⟩ now2 p.name p
      ⟨p.name, nid, now⟩ hown hf hlt
    refine ⟨_, h2, ?_⟩
    simp

/-- Witness for `c10_cache_keyed_by_provider_name`: registry `[("a", pa)]`
with `pa.name = "a"`; looking up `"default"` then `"a"` yields client `0`
both times, one construction, one cache entry. -/
theorem c10_cache_keyed_by_provider_name_witness :
    getProviderInstance (aliasDefault [(S "a", ⟨S "a", S "u", S "k", []⟩)]) ⟨[], 0⟩ 0
        (S "default") = Except.ok (0, ⟨[⟨S "a", 0, 0⟩], 1⟩) ∧
    ∃ cache3,
      getProviderInstance (aliasDefault [(S "a", ⟨S "a", S "u", S "k", []⟩)])
          ⟨[⟨S "a", 0, 0⟩], 1⟩ 1 (S "a") = Except.ok (0, ⟨cache3, 1⟩) ∧
        cache3.length = 1 :=
  c10_cache_keyed_by_provider_name [(S "a", ⟨S "a", S "u", S "k", []⟩)]
    ⟨S "a", S "u", S "k", []⟩ 0 0 1 rfl (by decide) (by decide)

/-! ## Writer calls per request (C1)

One request passes through the `formatRequest` middleware (translation;
its catch block synthesizes a one-element `errorCompletion` and hands it
to `streamOpenAIResponse`, then `next()` runs regardless) and then the
POST `/v1/messages` handler (registry lookup, upstream fetch,
`streamOpenAIResponse` on success; its catch block at index.ts 257-259
only calls `log`).  The model records the sequence of
`streamOpenAIResponse` invocations as a function of the translation
outcome and the dispatch outcome; the source evaluates `Date.now()`
twice in the same literal, modelled as one `now`. -/

/-- The single chunk of `errorCompletion` (part_000 lines 328-342). -/
structure ErrChunk where
  id : JStr
  created : Nat
  model : JStr
  object : JStr
  deltaContent : JStr
  finish_reason : JStr
deriving DecidableEq

def errorCompletion (now : Nat) (model : JStr) (msg : JStr) : List ErrChunk :=
  [⟨S "error_" ++ (Nat.repr now).data, now / 1000, model, S "chat.completion.chunk",
    S "Error: " ++ msg, S "stop"⟩]

/-- What a `streamOpenAIResponse` invocation is handed. -/
inductive WriterArg where
  | errorEvents (chunks : List ErrChunk)
  | streamEvents
  | jsonObject
deriving DecidableEq

/-- Outcome of message translation in `formatRequest`. -/
inductive TransOutcome where
  | ok
  | err (msg : JStr)
deriving DecidableEq

/-- Outcome of the POST handler's dispatch. -/
inductive DispatchOutcome where
  | providerNotFound
  | httpError (status : Nat)
  | ok (streaming : Bool)
deriving DecidableEq

/-- Writer calls made by `formatRequest`: only its catch block calls the
writer, with the one-element error sequence. -/
def formatRequestWriterCalls (now : Nat) (model : JStr) : TransOutcome → List WriterArg
  | .ok => []
  | .err m => [.errorEvents (errorCompletion now model m)]

/-- Writer calls made by the POST handler: one on success (streaming or
parsed JSON); the catch block reached by a registry miss or a non-2xx
status only logs. -/
def postHandlerWriterCalls : DispatchOutcome → List WriterArg
  | .ok true => [.streamEvents]
  | .ok false => [.jsonObject]
  | .providerNotFound => []
  | .httpError _ => []

/-- All writer calls for one request: middleware first (`next()` always
runs), then the handler. -/
def requestWriterCalls (now : Nat) (model : JStr) (tr : TransOutcome)
    (d : DispatchOutcome) : List WriterArg :=
  formatRequestWriterCalls now model tr ++ postHandlerWriterCalls d

/-- C1 counterexample: translation succeeds but the provider is unknown
(or the upstream answers non-2xx) — the POST handler's catch block only
logs, so the writer is called zero times, not exactly once, and no error
chunk reaches the caller. -/
theorem c1_counterexample :
    requestWriterCalls 0 [] TransOutcome.ok DispatchOutcome.providerNotFound = [] ∧
    (requestWriterCalls 0 [] TransOutcome.ok DispatchOutcome.providerNotFound).length ≠ 1 ∧
    requestWriterCalls 0 [] TransOutcome.ok (DispatchOutcome.httpError 500) = [] := by
  decide

/-- C1 (amended): on a translation failure the middleware hands the
writer the one-element error-chunk sequence (generated id, timestamp,
requested model, `Error:`-prefixed delta, `stop` finish reason) and the
handler still runs afterwards; on successful translation a dispatch
failure produces zero writer calls while a successful dispatch produces
exactly one. -/
theorem c1_writer_calls_amended :
    ∀ (now : Nat) (model : JStr) (tr : TransOutcome) (d : DispatchOutcome),
      (∀ m, tr = TransOutcome.err m →
        requestWriterCalls now model tr d =
          WriterArg.errorEvents
              [⟨S "error_" ++ (Nat.repr now).data, now / 1000, model,
                S "chat.completion.chunk", S "Error: " ++ m, S "stop"⟩] ::
            postHandlerWriterCalls d ∧
        (errorCompletion now model m).length = 1) ∧
      (tr = TransOutcome.ok →
        ((d = DispatchOutcome.providerNotFound ∨ ∃ s, d = DispatchOutcome.httpError s) →
          requestWriterCalls now model tr d = []) ∧
        (∀ b, d = DispatchOutcome.ok b →
          (requestWriterCalls now model tr d).length = 1)) := by
  intro now model tr d
  constructor
  · intro m hm
    subst hm
    refine ⟨?_, rfl⟩
    rw [requestWriterCalls, formatRequestWriterCalls, errorCompletion]
    rfl
  · intro htr
    subst htr
    constructor
    · intro hd
      rcases hd with hd | ⟨s, hd⟩ <;> subst hd <;> rfl
    · intro b hb
      subst hb
      cases b <;> rfl

/-- Witness for `c1_writer_calls_amended`: a concrete translation
failure at time 5 for model `m` with message `boom` yields exactly the
one error-events writer call. -/
theorem c1_writer_calls_amended_witness :
    requestWriterCalls 5 (S "m") (TransOutcome.err (S "boom"))
        DispatchOutcome.providerNotFound =
      [WriterArg.errorEvents [⟨S "error_5", 0, S "m", S "chat.completion.chunk",
        S "Error: boom", S "stop"⟩]] := by
  have h := (c1_writer_calls_amended 5 (S "m") (TransOutcome.err (S "boom"))
    DispatchOutcome.providerNotFound).1 (S "boom") rfl
  rw [h.1]
  decide

end CCR
